import Mathlib

/-!
Verification of the Ki-Porter S-expression library core (src/src/app.py):
the S-expression parser/serializer round-trip, the library-table reader,
the symbol-library document model (split / entry-name / merge), the URI
resolver and the import pipeline around them.

Python strings are Lean `String`s, parsed S-expression values are `SExp`
(a `sexpdata.Symbol` is `SExp.sym`, a quoted string is `SExp.str`, a list
is `SExp.list`), and Python exceptions are `Except PyErr` results.
-/

namespace KiPorter

/-- A parsed S-expression node: a bare symbol atom, a quoted literal atom,
or a list of nodes. Modelled from the spec: the data model of §3 (the
parser is the external `sexpdata` library, not part of the repository;
per §4.1 numeric-looking bare symbols are not specially typed). -/
inductive SExp where
  | sym (s : String)
  | str (s : String)
  | list (xs : List SExp)

/-- Whitespace characters recognized by the tokenizer. -/
def isWs (c : Char) : Bool :=
  c = ' ' || c = '\n' || c = '\t' || c = '\r'

/-- Characters that end a bare-symbol token: whitespace, parentheses and
the double quote. -/
def isDelim (c : Char) : Bool :=
  isWs c || c = '(' || c = ')' || c = '"'

/-- Scan the body of a quoted literal after its opening quote. Modelled
from the spec: §4.1, a quoted literal is delimited by double quotes with
backslash-escaped quotes/backslashes inside; `none` on an unterminated
literal. Returns the decoded content and the remaining characters. -/
def lexString : List Char → Option (List Char × List Char)
  | [] => none
  | c :: rest =>
    if c = '\\' then
      match rest with
      | [] => none
      | d :: rest2 =>
        match lexString rest2 with
        | none => none
        | some (s, r) => some (d :: s, r)
    else if c = '"' then some ([], rest)
    else
      match lexString rest with
      | none => none
      | some (s, r) => some (c :: s, r)

/-- A lexical token of the nested-list grammar. -/
inductive Tok where
  | lpar
  | rpar
  | sym (s : String)
  | str (s : String)

/-- Tokenizer for the grammar of §4.1 (modelled from the spec; fuel-driven
so that the kernel can evaluate it — the fuel is always taken one larger
than the number of characters, which suffices because every step consumes
at least one character). -/
def tokenize : Nat → List Char → Option (List Tok)
  | 0, _ => none
  | _ + 1, [] => some []
  | fuel + 1, c :: rest =>
    if isWs c then tokenize fuel rest
    else if c = '(' then (tokenize fuel rest).map (Tok.lpar :: ·)
    else if c = ')' then (tokenize fuel rest).map (Tok.rpar :: ·)
    else if c = '"' then
      match lexString rest with
      | none => none
      | some (s, r) => (tokenize fuel r).map (Tok.str ⟨s⟩ :: ·)
    else
      (tokenize fuel (rest.dropWhile (fun d => !isDelim d))).map
        (Tok.sym ⟨c :: rest.takeWhile (fun d => !isDelim d)⟩ :: ·)

mutual

/-- Parse one expression from a token stream (fuel-driven recursive
descent; modelled from the spec, §4.1). -/
def parseExpr : Nat → List Tok → Option (SExp × List Tok)
  | 0, _ => none
  | _ + 1, [] => none
  | _ + 1, Tok.sym s :: ts => some (.sym s, ts)
  | _ + 1, Tok.str s :: ts => some (.str s, ts)
  | _ + 1, Tok.rpar :: _ => none
  | fuel + 1, Tok.lpar :: ts =>
    match parseList fuel ts with
    | none => none
    | some (xs, r) => some (.list xs, r)

/-- Parse list elements up to the closing parenthesis. -/
def parseList : Nat → List Tok → Option (List SExp × List Tok)
  | 0, _ => none
  | fuel + 1, ts =>
    match ts with
    | Tok.rpar :: rest => some ([], rest)
    | _ =>
      match parseExpr fuel ts with
      | none => none
      | some (x, ts1) =>
        match parseList fuel ts1 with
        | none => none
        | some (xs, ts2) => some (x :: xs, ts2)

end

/-- `sexpdata.loads`: tokenize the whole text and require exactly one
expression with nothing left over; `none` on any syntax error (unbalanced
parentheses, unterminated literal, empty input, trailing garbage).
Modelled from the spec: §4.1, the parser is external to the repository. -/
def parse (text : String) : Option SExp :=
  match tokenize (text.data.length + 1) text.data with
  | none => none
  | some toks =>
    match parseExpr (toks.length + 1) toks with
    | some (n, []) => some n
    | _ => none

/-- Backslash-escape quotes and backslashes in quoted-literal content
(the quoting rule of §4.1/§4.2 that `sexpdata.dumps` applies). -/
def escapeChars : List Char → List Char
  | [] => []
  | c :: cs =>
    if c = '"' || c = '\\' then '\\' :: c :: escapeChars cs
    else c :: escapeChars cs

/-- `_format_atom` (app.py:266-269): serialise an atom via the
parser's own quoting rule (`sexpdata.dumps`): a bare symbol prints
verbatim, a literal prints quoted with escapes. `_format_sexp` only ever
applies it to non-list nodes, so the list case is unreachable. -/
def formatAtomChars : SExp → List Char
  | .sym s => s.data
  | .str s => '"' :: (escapeChars s.data ++ ['"'])
  | .list _ => []

/-- `'  ' * indent`. -/
def indentChars (n : Nat) : List Char :=
  List.replicate (2 * n) ' '

/-- `'\n'.join(body_items)`. -/
def joinNL : List (List Char) → List Char
  | [] => []
  | [x] => x
  | x :: xs => x ++ '\n' :: joinNL xs

/-- The closing logic of `_format_sexp`: an empty body closes the first
line directly, otherwise the body items go on their own lines followed by
the closing parenthesis at the parent indentation. -/
def closeBody (ind : Nat) (firstLine : List Char) (bodyItems : List (List Char)) :
    List Char :=
  match bodyItems with
  | [] => firstLine ++ [')']
  | items => firstLine ++ '\n' :: (joinNL items ++ '\n' :: (indentChars ind ++ [')']))

mutual

/-- `_format_sexp` (app.py:272-298): pretty-print an S-expression with
two-space indentation; a list whose head is itself a list opens the
parenthesis on its own line, otherwise the head atom is written inline. -/
def fmt : Nat → SExp → List Char
  | ind, .sym s => indentChars ind ++ formatAtomChars (.sym s)
  | ind, .str s => indentChars ind ++ formatAtomChars (.str s)
  | ind, .list [] => indentChars ind ++ ['(', ')']
  | ind, .list (.sym s :: tail) =>
    closeBody ind (indentChars ind ++ '(' :: formatAtomChars (.sym s)) (fmtL (ind + 1) tail)
  | ind, .list (.str s :: tail) =>
    closeBody ind (indentChars ind ++ '(' :: formatAtomChars (.str s)) (fmtL (ind + 1) tail)
  | ind, .list (.list hs :: tail) =>
    closeBody ind (indentChars ind ++ ['('])
      (fmt (ind + 1) (.list hs) :: fmtL (ind + 1) tail)

/-- Format each child on its own line (`_format_sexp`'s body loop). -/
def fmtL : Nat → List SExp → List (List Char)
  | _, [] => []
  | ind, x :: xs => fmt ind x :: fmtL ind xs

end

/-- `_format_sexp(node)` at top level, as a string. -/
def formatSexp (n : SExp) : String := ⟨fmt 0 n⟩

/-- `_serialise_symbol_library` (app.py:337-343): format and ensure a
trailing newline. -/
def serialiseSymbolLibrary (n : SExp) : String :=
  let f := fmt 0 n
  if f.getLast? = some '\n' then ⟨f⟩ else ⟨f ++ ['\n']⟩

mutual

/-- The token sequence a node serialises to (proof device). -/
def toToks : SExp → List Tok
  | .sym s => [Tok.sym s]
  | .str s => [Tok.str s]
  | .list xs => Tok.lpar :: (toToksL xs ++ [Tok.rpar])

def toToksL : List SExp → List Tok
  | [] => []
  | x :: xs => toToks x ++ toToksL xs

end

mutual

/-- Fuel bound for parsing a node (proof device). -/
def sz : SExp → Nat
  | .sym _ => 1
  | .str _ => 1
  | .list xs => szL xs + 1

def szL : List SExp → Nat
  | [] => 1
  | x :: xs => sz x + szL xs

end

mutual

/-- Well-formedness of parser output: bare symbols are nonempty and free
of delimiter characters (proof device). -/
def wf : SExp → Bool
  | .sym s => !s.data.isEmpty && s.data.all (fun c => !isDelim c)
  | .str _ => true
  | .list xs => wfL xs

def wfL : List SExp → Bool
  | [] => true
  | x :: xs => wf x && wfL xs

end

/-- A raised Python exception, by class: `ValueError`, `AssertionError`,
an error escaping `sexpdata.loads`, or the spec's typed `ConflictError`
(§7) carrying the colliding names, used by the spec-modelled merge. -/
inductive PyErr where
  | valueError (msg : String)
  | assertionError (msg : String)
  | loadFailure
  | conflictError (names : List String)

mutual

/-- Python `repr` of a parsed value, as `str()` of a list produces it:
`sexpdata.Symbol` prints as `Symbol('x')`, a literal as `'x'`, a list
as the bracketed, comma-separated reprs of its items. (Python's escaping
of quotes inside the repr of a literal is not modelled; no library entry
name is a list, so nothing downstream depends on it.) -/
def pyRepr : SExp → String
  | .sym s => "Symbol('" ++ s ++ "')"
  | .str s => "'" ++ s ++ "'"
  | .list xs => "[" ++ pyReprItems xs ++ "]"

/-- `", ".join(map(repr, xs))`. -/
def pyReprItems : List SExp → String
  | [] => ""
  | [x] => pyRepr x
  | x :: xs => pyRepr x ++ ", " ++ pyReprItems xs

end

/-- Python `str()` of a parsed value: a `sexpdata.Symbol` subclasses
`str` so it prints its bare value, a literal prints as itself, and a
list prints as its repr. `_symbol_name` (app.py:46-50) and
`_value_to_str` (app.py:53-57) both compute exactly this. -/
def pyStr : SExp → String
  | .sym s => s
  | .str s => s
  | .list xs => pyRepr (.list xs)

/-- The `isinstance(node, list) and node and isinstance(node[0], Symbol)
and node[0].value() == 'symbol'` test of app.py:240-246. -/
def isSymbolEntry : SExp → Bool
  | .list (.sym s :: _) => s = "symbol"
  | _ => false

/-- `_split_symbol_library` (app.py:225-251): require a list whose head
is the bare symbol `kicad_symbol_lib`; the remaining children are split,
in order, into `symbol` entries and other metadata (the source's single
append loop is the stable two-way partition written here as two filters). -/
def splitSymbolLibrary (ast : SExp) : Except PyErr (SExp × List SExp × List SExp) :=
  match ast with
  | .list (.sym t :: rest) =>
    if t = "kicad_symbol_lib" then
      .ok (.sym t, rest.filter (fun n => !isSymbolEntry n), rest.filter isSymbolEntry)
    else .error (.valueError "Invalid KiCad symbol library structure.")
  | _ => .error (.valueError "Invalid KiCad symbol library structure.")

/-- `_symbol_entry_name` (app.py:254-263): `len(entry) < 2` raises, else
the second element prints as a bare-symbol value or through `str()`.
Python `len`/indexing on a stray atom entry works on its underlying
string (a `sexpdata.Symbol` subclasses `str`), yielding its second
character. -/
def symbolEntryName : SExp → Except PyErr String
  | .list es =>
    match es with
    | _ :: b :: _ =>
      .ok (match b with
        | .sym s => s
        | t => pyStr t)
    | _ => .error (.valueError "Symbol entry missing name field.")
  | .sym s =>
    match s.data with
    | _ :: c :: _ => .ok ⟨[c]⟩
    | _ => .error (.valueError "Symbol entry missing name field.")
  | .str s =>
    match s.data with
    | _ :: c :: _ => .ok ⟨[c]⟩
    | _ => .error (.valueError "Symbol entry missing name field.")

/-- Python `len()` of a parsed value: list length for a list, character
count of the underlying string for an atom (`sexpdata.Symbol` subclasses
`str`). -/
def pyLen : SExp → Nat
  | .list xs => xs.length
  | .sym s => s.data.length
  | .str s => s.data.length

/-- Evaluate `_symbol_entry_name` across a list of entries (the
comprehensions at app.py:319, 370 and 374 evaluate exactly these,
propagating the first failure). -/
def entryNames : List SExp → Except PyErr (List String)
  | [] => .ok []
  | e :: es =>
    match symbolEntryName e with
    | .error err => .error err
    | .ok n =>
      match entryNames es with
      | .error err => .error err
      | .ok ns => .ok (n :: ns)

/-- `name in name_to_index`. -/
def hasKey (d : List (String × Nat)) (k : String) : Bool :=
  d.any (fun p => p.1 = k)

/-- `d[k] = v` on a Python dict kept as an insertion-ordered association
list: overwrite in place if the key is present, else append. -/
def dictInsert (d : List (String × Nat)) (k : String) (v : Nat) : List (String × Nat) :=
  if hasKey d k then d.map (fun p => if p.1 = k then (k, v) else p)
  else d ++ [(k, v)]

/-- The dict comprehension at app.py:319:
`{ _symbol_entry_name(entry): idx for idx, entry in enumerate(symbols_out) }`. -/
def buildIndexAux : Nat → List (String × Nat) → List SExp → Except PyErr (List (String × Nat))
  | _, d, [] => .ok d
  | i, d, e :: es =>
    match symbolEntryName e with
    | .error err => .error err
    | .ok n => buildIndexAux (i + 1) (dictInsert d n i) es

/-- The append loop of `_merge_symbol_libraries` (app.py:323-331): a name
already indexed raises, else the entry is appended and indexed at its new
position. -/
def mergeLoop : List SExp → List (String × Nat) → Nat → List SExp → Except PyErr (List SExp × Nat)
  | out, _, added, [] => .ok (out, added)
  | out, idx, added, e :: rest =>
    match symbolEntryName e with
    | .error err => .error err
    | .ok name =>
      if hasKey idx name then
        .error (.assertionError
          ("Symbol '" ++ name ++ "' is already present in the target library."))
      else
        mergeLoop (out ++ [e]) (dictInsert idx name out.length) (added + 1) rest

/-- `_merge_symbol_libraries` (app.py:301-334). -/
def mergeSymbolLibraries (existingAst : Option SExp) (incomingAst : SExp) :
    Except PyErr (SExp × Nat) := do
  let (headerIn, metaIn, symbolsIn) ← splitSymbolLibrary incomingAst
  let (headerOut, metaOut, symbolsOut) ←
    match existingAst with
    | none => pure (headerIn, metaIn, ([] : List SExp))
    | some ex => splitSymbolLibrary ex
  let nameToIndex ← buildIndexAux 0 [] symbolsOut
  let (symbolsFinal, added) ← mergeLoop symbolsOut nameToIndex 0 symbolsIn
  return (.list (headerOut :: (metaOut ++ symbolsFinal)), added)

/-- `record[key] = value` on a Python dict kept as an insertion-ordered
association list. -/
def recordInsert (d : List (String × String)) (k v : String) : List (String × String) :=
  if d.any (fun p => p.1 = k) then d.map (fun p => if p.1 = k then (k, v) else p)
  else d ++ [(k, v)]

/-- The pair loop of `parse_lib_table` (app.py:85-89): children that are
not exactly 2-element lists are skipped. -/
def buildRecord (pairs : List SExp) : List (String × String) :=
  pairs.foldl
    (fun record pair =>
      match pair with
      | .list [k, v] => recordInsert record (pyStr k) (pyStr v)
      | _ => record)
    []

/-- `parse_lib_table` (app.py:60-93): `none` models a missing file (empty
result); a text that fails to parse degrades to an empty list; otherwise
one record per top-level `lib` child, empty records discarded. Iterating
a non-list parse result in Python walks the characters of the underlying
string, none of which is a list, so it likewise yields no records. -/
def parseLibTable (file : Option String) : List (List (String × String)) :=
  match file with
  | none => []
  | some text =>
    match parse text with
    | none => []
    | some parsed =>
      match parsed with
      | .list nodes =>
        nodes.foldl
          (fun libraries node =>
            match node with
            | .list (.sym hv :: rest) =>
              if hv = "lib" then
                let record := buildRecord rest
                if record.isEmpty then libraries else libraries ++ [record]
              else libraries
            | _ => libraries)
          []
      | _ => []

/-- The table-reader behavior as the claim words it: one record per
top-level child list whose head atom equals `lib`, built from that list's
remaining children, skipping children that are not exactly 2-element
pairs and discarding records that end up with zero pairs. -/
def specReadTable (root : SExp) : List (List (String × String)) :=
  match root with
  | .list children =>
    children.filterMap (fun child =>
      match child with
      | .list (.sym hv :: rest) =>
        if hv = "lib" then
          let pairs := rest.filterMap (fun c =>
            match c with
            | .list [k, v] => some (pyStr k, pyStr v)
            | _ => none)
          let record := pairs.foldl (fun d kv => recordInsert d kv.1 kv.2) []
          if record.isEmpty then none else some record
        else none
      | _ => none)
  | _ => []

/-- Lexicographic comparison of character lists by code point. -/
def strLeChars : List Char → List Char → Bool
  | [], _ => true
  | _ :: _, [] => false
  | a :: as, b :: bs =>
    if a.toNat < b.toNat then true
    else if b.toNat < a.toNat then false
    else strLeChars as bs

/-- Python's string order: lexicographic by code point. -/
def pyLe (a b : String) : Prop := strLeChars a.data b.data = true

instance : DecidableRel pyLe := fun _ _ => instDecidableEqBool _ _

instance : IsTotal String pyLe where
  total := by
    intro a b
    unfold pyLe
    generalize a.data = x
    generalize b.data = y
    induction x generalizing y with
    | nil => left; rfl
    | cons c cs ih =>
      cases y with
      | nil => right; rfl
      | cons d ds =>
        simp only [strLeChars]
        rcases Nat.lt_trichotomy c.toNat d.toNat with h | h | h
        · left; simp [h]
        · have hcd : ¬ c.toNat < d.toNat := by omega
          have hdc : ¬ d.toNat < c.toNat := by omega
          rcases ih ds with h2 | h2
          · left; simp [hcd, hdc, h2]
          · right; simp [hcd, hdc, h2]
        · right; simp [h]

instance : IsTrans String pyLe where
  trans := by
    intro a b c
    unfold pyLe
    generalize a.data = x
    generalize b.data = y
    generalize c.data = z
    induction x generalizing y z with
    | nil => intro _ _; rfl
    | cons p ps ih =>
      intro hxy hyz
      cases y with
      | nil => simp [strLeChars] at hxy
      | cons q qs =>
        cases z with
        | nil => simp [strLeChars] at hyz
        | cons r rs =>
          simp only [strLeChars] at hxy hyz ⊢
          rcases Nat.lt_trichotomy p.toNat q.toNat with h1 | h1 | h1
          · rcases Nat.lt_trichotomy q.toNat r.toNat with h2 | h2 | h2
            · simp [show p.toNat < r.toNat by omega]
            · simp [show p.toNat < r.toNat by omega]
            · simp [show ¬ q.toNat < r.toNat by omega, h2] at hyz
          · rcases Nat.lt_trichotomy q.toNat r.toNat with h2 | h2 | h2
            · simp [show p.toNat < r.toNat by omega]
            · have hq1 : ¬ p.toNat < q.toNat := by omega
              have hq2 : ¬ q.toNat < p.toNat := by omega
              have hr1 : ¬ q.toNat < r.toNat := by omega
              have hr2 : ¬ r.toNat < q.toNat := by omega
              simp only [hq1, hq2, if_false] at hxy
              simp only [hr1, hr2, if_false] at hyz
              simp [show ¬ p.toNat < r.toNat by omega,
                show ¬ r.toNat < p.toNat by omega]
              exact ih qs rs hxy hyz
            · simp [show ¬ q.toNat < r.toNat by omega, h2] at hyz
          · simp [show ¬ p.toNat < q.toNat by omega, h1] at hxy

/-- Python `sorted` on a collection of strings. -/
def pySorted (l : List String) : List String := List.insertionSort pyLe l

/-- Modelled from the spec: the Merge Policy configuration enum of §3 —
the repository's own merge only rejects (other reviewed variants
overwrite, per §9, and none of those is under src/), so the
policy-parameterised engine below follows the spec's words. The policy
is a caller-supplied value, not a hidden global. -/
inductive MergePolicy where
  | rejectOnConflict
  | overwriteOnConflict

/-- Modelled from the spec: the append phase of §4.5 under
`RejectOnConflict` — an incoming name already taken aborts, new names
are appended (the growing name set keeps post-merge names unique, §3). -/
def rejectAppendLoop : List String → List SExp → List (SExp × String) → Except PyErr (List SExp)
  | _, acc, [] => .ok acc
  | curNames, acc, (e, n) :: rest =>
    if curNames.contains n then .error (.conflictError [n])
    else rejectAppendLoop (curNames ++ [n]) (acc ++ [e]) rest

/-- The position of the entry carrying a given name. -/
def findNameIdx (n : String) : List (SExp × String) → Option Nat
  | [] => none
  | p :: ps => if p.2 = n then some 0 else (findNameIdx n ps).map (· + 1)

/-- Modelled from the spec: the entry walk of §4.5 under
`OverwriteOnConflict` — a name already present replaces the entry at its
existing position and counts as updated; a new name is appended and
counts as added. -/
def overwriteLoop : List (SExp × String) → Nat → Nat → List (SExp × String) →
    List (SExp × String) × Nat × Nat
  | cur, added, updated, [] => (cur, added, updated)
  | cur, added, updated, (e, n) :: rest =>
    match findNameIdx n cur with
    | some i => overwriteLoop (cur.set i (e, n)) added (updated + 1) rest
    | none => overwriteLoop (cur ++ [(e, n)]) (added + 1) updated rest

/-- Modelled from the spec: `merge(existing, incoming, policy)` of §4.5.
An absent existing document takes header, metadata and entries from the
incoming one; otherwise header and metadata come from the existing
document (metadata variant (a): kept unchanged). Under rejection the
colliding names are collected, deduplicated and sorted before any
mutation; under overwrite the entries are walked as `overwriteLoop`
does. -/
def specMerge (existing : Option SExp) (incoming : SExp) (policy : MergePolicy) :
    Except PyErr (SExp × Nat × Nat) := do
  let (headerIn, metaIn, entriesIn) ← splitSymbolLibrary incoming
  let (headerOut, metaOut, entriesOut) ←
    match existing with
    | none => pure (headerIn, metaIn, ([] : List SExp))
    | some ex => splitSymbolLibrary ex
  let namesIn ← entryNames entriesIn
  let namesOut ← entryNames entriesOut
  match policy with
  | .rejectOnConflict =>
    let dups := pySorted ((namesOut.filter (fun n => namesIn.contains n)).dedup)
    if dups.isEmpty then do
      let merged ← rejectAppendLoop namesOut entriesOut (entriesIn.zip namesIn)
      return (.list (headerOut :: (metaOut ++ merged)), entriesIn.length, 0)
    else .error (.conflictError dups)
  | .overwriteOnConflict =>
    let (pairs, added, updated) :=
      overwriteLoop (entriesOut.zip namesOut) 0 0 (entriesIn.zip namesIn)
    return (.list (headerOut :: (metaOut ++ pairs.map (fun p => p.1))), added, updated)

/-- Split a character list at every `/` (separators dropped, empty
pieces kept), accumulating the current piece in reverse. -/
def splitSlashAux : List Char → List Char → List (List Char)
  | acc, [] => [acc.reverse]
  | acc, c :: rest =>
    if c = '/' then acc.reverse :: splitSlashAux [] rest
    else splitSlashAux (c :: acc) rest

/-- `path.split('/')`. -/
def splitSlash (cs : List Char) : List (List Char) := splitSlashAux [] cs

/-- `'/'.join(comps)`. -/
def joinSlash : List (List Char) → List Char
  | [] => []
  | [x] => x
  | x :: xs => x ++ '/' :: joinSlash xs

/-- One step of `posixpath.normpath`'s component loop: drop empty and
`.` components, keep `..` when the path is relative and nothing can be
popped (or the last kept component is itself `..`), otherwise pop. -/
def normStep (isAbs : Bool) (acc : List (List Char)) (comp : List Char) : List (List Char) :=
  if comp = [] ∨ comp = ['.'] then acc
  else if comp ≠ ['.', '.'] ∨ (isAbs = false ∧ acc = []) ∨ acc.getLast? = some ['.', '.'] then
    acc ++ [comp]
  else acc.dropLast

/-- `posixpath.normpath`: collapse separators and `.`/`..` components,
preserving the double-slash special case. -/
def pyNormpathChars (p : List Char) : List Char :=
  if p = [] then ['.']
  else
    let slashes : Nat :=
      if p.take 2 = ['/', '/'] ∧ p.take 3 ≠ ['/', '/', '/'] then 2
      else if p.take 1 = ['/'] then 1
      else 0
    let newComps := (splitSlash p).foldl (normStep (slashes ≠ 0)) []
    let res := List.replicate slashes '/' ++ joinSlash newComps
    if res = [] then ['.'] else res

/-- `os.path.normpath` on strings. -/
def pyNormpath (s : String) : String := ⟨pyNormpathChars s.data⟩

/-- `os.path.isabs`. -/
def pyIsAbs (s : String) : Bool := s.data.take 1 = ['/']

/-- Two-argument `os.path.join`. -/
def pyJoin (a b : String) : String :=
  if pyIsAbs b then b
  else if a = "" ∨ a.data.getLast? = some '/' then ⟨a.data ++ b.data⟩
  else ⟨a.data ++ '/' :: b.data⟩

/-- `os.path.abspath` against a given working directory:
`normpath(join(cwd, p))`. -/
def pyAbspath (cwd p : String) : String := pyNormpath (pyJoin cwd p)

/-- `os.path.basename`: the part after the last `/`. -/
def pyBasename (p : String) : String := ⟨((splitSlash p.data).getLast?).getD []⟩

/-- The longest common prefix of two component lists. -/
def commonPrefixComps : List (List Char) → List (List Char) → List (List Char)
  | a :: as, b :: bs => if a = b then a :: commonPrefixComps as bs else []
  | _, _ => []

/-- `os.path.commonpath` of two absolute POSIX paths: the common prefix
of their non-empty, non-`.` components, re-rooted at `/`. -/
def pyCommonPathAbs (p q : String) : String :=
  let comps := fun (s : String) =>
    (splitSlash s.data).filter (fun c => !(c.isEmpty || c = ['.']))
  ⟨'/' :: joinSlash (commonPrefixComps (comps p) (comps q))⟩

/-- The value of a hexadecimal digit. -/
def hexVal : Char → Option Nat
  | c =>
    if 48 ≤ c.toNat ∧ c.toNat ≤ 57 then some (c.toNat - 48)
    else if 97 ≤ c.toNat ∧ c.toNat ≤ 102 then some (c.toNat - 87)
    else if 65 ≤ c.toNat ∧ c.toNat ≤ 70 then some (c.toNat - 55)
    else none

/-- `urllib.parse.unquote`: decode `%XX` escapes, leaving malformed
escapes in place. (Multi-byte UTF-8 escape sequences decode here
byte-by-byte to code points; every input the program resolves is
ASCII, where the two agree.) -/
def unquoteChars : List Char → List Char
  | [] => []
  | '%' :: a :: b :: rest =>
    (match hexVal a, hexVal b with
     | some ha, some hb => Char.ofNat (16 * ha + hb) :: unquoteChars rest
     | _, _ => '%' :: unquoteChars (a :: b :: rest))
  | c :: rest => c :: unquoteChars rest

/-- Whether `pat` is a prefix of the other list. -/
def chPrefix : List Char → List Char → Bool
  | [], _ => true
  | _ :: _, [] => false
  | a :: as, b :: bs => a = b && chPrefix as bs

/-- Whether `pat` occurs anywhere in the list (`pat in s` in Python). -/
def containsSub (pat : List Char) : List Char → Bool
  | [] => chPrefix pat []
  | c :: rest => chPrefix pat (c :: rest) || containsSub pat rest

/-- `pat in s` on strings. -/
def strContains (s pat : String) : Bool := containsSub pat.data s.data

/-- Python `str.replace`: replace every non-overlapping occurrence, left
to right (fuel-driven; each step consumes at least one character since
the resolver's patterns are never empty). -/
def replaceSub (pat rep : List Char) : Nat → List Char → List Char
  | 0, cs => cs
  | _ + 1, [] => []
  | fuel + 1, c :: rest =>
    if chPrefix pat (c :: rest) && !pat.isEmpty then
      rep ++ replaceSub pat rep fuel ((c :: rest).drop pat.length)
    else c :: replaceSub pat rep fuel rest

/-- `str.replace` on strings. -/
def pyReplace (s pat rep : String) : String :=
  ⟨replaceSub pat.data rep.data (s.data.length + 1) s.data⟩

/-- `os.path.expanduser` with the home directory as a parameter: expands
a leading `~` (the `~user` form, which consults the pwd database, is not
modelled; nothing the program resolves uses it). -/
def pyExpanduser (home : String) (s : String) : String :=
  match s.data with
  | '~' :: rest =>
    (match rest with
     | [] => home
     | '/' :: _ => ⟨home.data ++ rest⟩
     | _ => s)
  | _ => s

/-- A character `\w` of `posixpath.expandvars`'s variable-name pattern. -/
def isVarChar (c : Char) : Bool := c.isAlphanum || c = '_'

/-- `os.path.expandvars` against a variable lookup: substitute `$NAME`
and `$\x7bNAME\x7d` where the variable is set, leaving unknown variables
and unmatchable dollar signs in place (fuel-driven; every step consumes
at least one character). -/
def expandvarsGo (vars : String → Option String) : Nat → List Char → List Char
  | 0, cs => cs
  | _ + 1, [] => []
  | fuel + 1, '$' :: rest =>
    (match rest with
     | '{' :: rest2 =>
       (match rest2.dropWhile (fun c => !(c = '}')) with
        | '}' :: rest3 =>
          let name := rest2.takeWhile (fun c => !(c = '}'))
          (match vars ⟨name⟩ with
           | some v => v.data ++ expandvarsGo vars fuel rest3
           | none => '$' :: '{' :: (name ++ '}' :: expandvarsGo vars fuel rest3))
        | _ => '$' :: '{' :: expandvarsGo vars fuel rest2)
     | c :: _ =>
       if isVarChar c then
         let name := rest.takeWhile isVarChar
         (match vars ⟨name⟩ with
          | some v => v.data ++ expandvarsGo vars fuel (rest.dropWhile isVarChar)
          | none => '$' :: (name ++ expandvarsGo vars fuel (rest.dropWhile isVarChar)))
       else '$' :: expandvarsGo vars fuel rest
     | [] => ['$'])
  | fuel + 1, c :: rest => c :: expandvarsGo vars fuel rest

/-- `os.path.expandvars` on strings. -/
def pyExpandvars (vars : String → Option String) (s : String) : String :=
  ⟨expandvarsGo vars (s.data.length + 1) s.data⟩

/-- `s.startswith(pre)`. -/
def startsWithLit (s pre : String) : Bool := chPrefix pre.data s.data

/-- The netloc of a URI after its `//`: the text up to the next `/`, `?`
or `#`, as `urllib.parse.urlparse` reads it. -/
def uriNetloc (rest : List Char) : List Char :=
  rest.takeWhile (fun c => !(c = '/' || c = '?' || c = '#'))

/-- The raw path of a URI after its `//` and netloc: up to the query or
fragment. -/
def uriRawPath (rest : List Char) : List Char :=
  (rest.dropWhile (fun c => !(c = '/' || c = '?' || c = '#'))).takeWhile
    (fun c => !(c = '?' || c = '#'))

/-- `urlparse` splits `;params` off the last path segment; the path
attribute is the rest. -/
def stripParams (p : List Char) : List Char :=
  match (splitSlash p).getLast? with
  | none => p
  | some lastSeg =>
    joinSlash ((splitSlash p).dropLast ++ [lastSeg.takeWhile (fun c => !(c = ';'))])

/-- The environment a resolution or import runs in: the KiCad root paths
computed at startup (app.py:31-36; empty strings when the application
bundle was not found), the process state `os.path.expanduser` /
`os.path.expandvars` consult, the working directory, and the filesystem
queries the import performs. Pure functions stand in for the `os` calls. -/
structure Env where
  symbolsPath : String
  footprintsPath : String
  modelsPath : String
  home : String
  vars : String → Option String
  cwd : String
  isDir : String → Bool
  pathExists : String → Bool
  readFile : String → String

/-- The `file://` branch of `resolve_library_uri` (app.py:133-140): the
`urlparse` call raises `ValueError("Invalid IPv6 URL")` for a netloc
with unmatched square brackets (documented `urlsplit` behavior) —
modelled here as the error arm; otherwise the percent-escaped path is
decoded and a non-empty authority is folded into it. The NFKC netloc
validation concerns only non-ASCII netlocs and is not modelled. -/
def fileUriStep (resolved : String) : Except PyErr String :=
  if startsWithLit resolved "file://" then
    let rest := resolved.data.drop 7
    let netloc := uriNetloc rest
    if (netloc.contains '[' && !netloc.contains ']') ||
        (netloc.contains ']' && !netloc.contains '[') then
      .error (.valueError "Invalid IPv6 URL")
    else
      let path := unquoteChars (stripParams (uriRawPath rest))
      let path :=
        if netloc ≠ [] ∧ path = [] then '/' :: netloc
        else if netloc ≠ [] then '/' :: (netloc ++ path)
        else path
      .ok (⟨path⟩ : String)
  else .ok resolved

/-- `resolve_library_uri` (app.py:115-146): reject an empty URI;
substitute each placeholder token whose root is non-empty and occurs in
the current text; decode a `file://` URI's percent-escaped path (a bare
authority with empty decoded path becomes the path itself); expand
user-home and environment-variable syntax; and resolve a still-relative
result against the working directory. The `urlparse` call raises
`ValueError` for a netloc with unmatched square brackets (documented
`urlsplit` behavior), which escapes this function; the NFKC netloc
validation concerns only non-ASCII netlocs and is not modelled. -/
def resolveLibraryUri (env : Env) (uri : String) : Except PyErr String :=
  if uri = "" then .error (.valueError "Target library is missing a URI entry.")
  else
    let step := fun (resolved : String) (tokenPath : String × String) =>
      if tokenPath.2 ≠ "" ∧ strContains resolved tokenPath.1 then
        pyReplace resolved tokenPath.1 tokenPath.2
      else resolved
    let replacements := [
      ("${KICAD9_SYMBOL_DIR}", env.symbolsPath),
      ("${KICAD9_FOOTPRINT_DIR}", env.footprintsPath),
      ("${KICAD9_3DMODEL_DIR}", env.modelsPath),
      ("${KICAD9_3D_MODEL_DIR}", env.modelsPath)]
    let resolved := replacements.foldl step uri
    match fileUriStep resolved with
    | .error e => .error e
    | .ok resolved =>
      let resolved := pyExpandvars env.vars (pyExpanduser env.home resolved)
      let resolved := if pyIsAbs resolved then resolved else pyAbspath env.cwd resolved
      .ok resolved

/-- `_ensure_not_system_symbol` (app.py:197-215). Both compared paths
are absolute after `abspath`, so `os.path.commonpath` cannot raise here
(its `ValueError` arm is for mixed drives on Windows). -/
def ensureNotSystemSymbol (env : Env) (sourcePath : String) : Except PyErr Unit :=
  if env.symbolsPath = "" then .ok ()
  else
    let root := pyAbspath env.cwd env.symbolsPath
    let candidate := pyAbspath env.cwd sourcePath
    if pyCommonPathAbs candidate root = root then
      .error (.assertionError "Refusing to import from KiCad's built-in symbols directory.")
    else .ok ()

/-- `_load_symbol_library` (app.py:218-222): read and parse, letting a
parse failure escape to the caller. -/
def loadSymbolLibrary (env : Env) (path : String) : Except PyErr SExp :=
  match parse (env.readFile path) with
  | some ast => .ok ast
  | none => .error .loadFailure

/-- `target_library.get(key, default)`. -/
def pyGet (d : List (String × String)) (k dflt : String) : String :=
  match d.find? (fun p => p.1 = k) with
  | some p => p.2
  | none => dflt

/-- `import_symbol_library` (app.py:346-390) as a pure function of the
environment: the success value is the destination path, the bytes the
final write puts there, and the status message; an error means the
function raised before that write (`os.makedirs` only creates
directories and never touches the destination file). -/
def importSymbolLibrary (env : Env) (sourcePath : String)
    (targetLibrary : List (String × String)) : Except PyErr (String × String × String) := do
  let () ← ensureNotSystemSymbol env sourcePath
  let destUri := pyGet targetLibrary "uri" ""
  let destPath0 ← resolveLibraryUri env destUri
  let destPath :=
    if env.isDir destPath0 then pyJoin destPath0 (pyBasename sourcePath) else destPath0
  let sourceAbs := pyAbspath env.cwd sourcePath
  let destAbs := pyAbspath env.cwd destPath
  if sourceAbs = destAbs then
    .error (.assertionError "Source and destination symbol libraries are identical.")
  else do
    let incomingAst ← loadSymbolLibrary env sourceAbs
    let existingAst ←
      if env.pathExists destAbs then do
        let e ← loadSymbolLibrary env destAbs
        pure (some e)
      else pure none
    let (_, _, incomingSymbols) ← splitSymbolLibrary incomingAst
    let incomingNames ← entryNames incomingSymbols
    let () ←
      match existingAst with
      | some exAst => do
        let (_, _, existingSymbols) ← splitSymbolLibrary exAst
        let existingNames ← entryNames existingSymbols
        let duplicates :=
          pySorted ((existingNames.filter (fun n => incomingNames.contains n)).dedup)
        if duplicates.isEmpty then pure ()
        else .error (.assertionError
          ("Symbols already present in target library: " ++
            String.intercalate ", " duplicates))
      | none => pure ()
    let (mergedAst, added) ← mergeSymbolLibraries existingAst incomingAst
    let word := if added = 1 then "symbol" else "symbols"
    return (destAbs, serialiseSymbolLibrary mergedAst,
      "Added " ++ toString added ++ " " ++ word ++ " from " ++ pyBasename sourcePath ++
      " into " ++ pyGet targetLibrary "name" "unknown" ++ " (" ++ destAbs ++ ")")

/-- The write the import performs: `some (path, bytes)` on success,
`none` when it raised — the destination file is then untouched. -/
def importWrites (env : Env) (sourcePath : String)
    (targetLibrary : List (String × String)) : Option (String × String) :=
  match importSymbolLibrary env sourcePath targetLibrary with
  | .ok (d, c, _) => some (d, c)
  | .error _ => none

/-- The merged entry list C3 describes, written from the spec's words
over (entry, name) pairs: each existing entry whose name an incoming
entry carries is replaced in place by that incoming entry; incoming
entries with new names are appended in order. -/
def overwriteSpecEntries (ex inc : List (SExp × String)) : List (SExp × String) :=
  ex.map (fun p =>
    match inc.find? (fun q => q.2 = p.2) with
    | some q => (q.1, p.2)
    | none => p)
  ++ inc.filter (fun q => decide (∀ p ∈ ex, p.2 ≠ q.2))

/-- The added count C3 describes: the number of incoming entries whose
name is absent from the existing document. -/
def overwriteSpecAdded (ex inc : List (SExp × String)) : Nat :=
  (inc.filter (fun q => decide (∀ p ∈ ex, p.2 ≠ q.2))).length

/-- The updated count C3 describes: the number of incoming entries whose
name is already present in the existing document. -/
def overwriteSpecUpdated (ex inc : List (SExp × String)) : Nat :=
  (inc.filter (fun q => !decide (∀ p ∈ ex, p.2 ≠ q.2))).length

/-- The tokenizer at its canonical fuel (proof device). -/
def tkz (cs : List Char) : Option (List Tok) := tokenize (cs.length + 1) cs

/-- A character list that cannot extend a preceding bare-symbol token:
empty, or starting with a delimiter (proof device). -/
def delimHead : List Char → Prop
  | [] => True
  | c :: _ => isDelim c = true

/-- Well-formedness of a token: a bare-symbol token is nonempty and free
of delimiter characters (proof device). -/
def tokWf : Tok → Bool
  | .sym s => !s.data.isEmpty && s.data.all (fun c => !isDelim c)
  | _ => true

/-- The record `parse_lib_table` builds from one top-level child, when
that child contributes one (proof device). -/
def libRecordOf (node : SExp) : Option (List (String × String)) :=
  match node with
  | .list (.sym hv :: rest) =>
    if hv = "lib" then
      let record := buildRecord rest
      if record.isEmpty then none else some record
    else none
  | _ => none

/-- A concrete environment for exercising the import pipeline: no KiCad
bundle found (empty roots), an existing destination library on disk, and
a distinct source library sharing entry names with it. -/
def envC2 : Env :=
  { symbolsPath := "", footprintsPath := "", modelsPath := "", home := "/home/u",
    vars := fun _ => none, cwd := "/", isDir := fun _ => false,
    pathExists := fun p => p = "/t/lib.kicad_sym",
    readFile := fun p =>
      if p = "/s/in.kicad_sym" then
        "(kicad_symbol_lib (symbol \"c\") (symbol \"a\"))"
      else
        "(kicad_symbol_lib (symbol \"a\") (symbol \"b\") (symbol \"c\"))" }

/-- A concrete environment whose destination URI resolves to the source
path itself. -/
def envC10 : Env :=
  { symbolsPath := "", footprintsPath := "", modelsPath := "", home := "/home/u",
    vars := fun _ => none, cwd := "/", isDir := fun _ => false,
    pathExists := fun _ => false,
    readFile := fun _ => "" }

/-- A concrete environment for exercising the URI resolver: a known
symbols root and a fixed working directory. -/
def envC7 : Env :=
  { symbolsPath := "/roots/sym", footprintsPath := "", modelsPath := "",
    home := "/home/u", vars := fun _ => none, cwd := "/c",
    isDir := fun _ => false, pathExists := fun _ => false,
    readFile := fun _ => "" }

/-! ## Theorems -/

/-- C5: `_split_symbol_library` fails with its structure error exactly
when the root is not a list, is empty, or its head atom is not the bare
collection tag `kicad_symbol_lib`; on success it returns the head atom
unchanged as the header, the ordered remaining children whose head atom
equals the entry tag `symbol` as the entries, and all other remaining
children, in order, as the metadata. -/
theorem c5_split_fails_iff_and_partitions (root : SExp) :
    ((∃ e, splitSymbolLibrary root = .error e) ↔
      (∀ xs, root ≠ .list xs) ∨ root = .list [] ∨
        (∀ h rest, root = .list (h :: rest) → h ≠ .sym "kicad_symbol_lib")) ∧
    (∀ rest, root = .list (.sym "kicad_symbol_lib" :: rest) →
      splitSymbolLibrary root =
        .ok (.sym "kicad_symbol_lib", rest.filter (fun n => !isSymbolEntry n),
          rest.filter isSymbolEntry)) := by
  rcases root with s | s | xs
  · exact ⟨by simp [splitSymbolLibrary], by simp⟩
  · exact ⟨by simp [splitSymbolLibrary], by simp⟩
  · rcases xs with _ | ⟨h, rest⟩
    · exact ⟨by simp [splitSymbolLibrary], by simp⟩
    · rcases h with t | t | hs
      · by_cases ht : t = "kicad_symbol_lib"
        · subst ht
          refine ⟨?_, ?_⟩
          · simp only [splitSymbolLibrary, if_pos rfl]
            constructor
            · rintro ⟨e, he⟩; cases he
            · rintro (hne | hemp | hhd)
              · exact absurd rfl (hne _)
              · cases hemp
              · exact absurd rfl (hhd _ _ rfl)
          · intro rest' hr
            cases hr
            simp [splitSymbolLibrary]
        · refine ⟨?_, ?_⟩
          · simp only [splitSymbolLibrary, if_neg ht]
            constructor
            · intro _
              refine Or.inr (Or.inr ?_)
              rintro h' rest' hr hs
              cases hr
              cases hs
              exact ht rfl
            · intro _; exact ⟨_, rfl⟩
          · intro rest' hr
            cases hr
            exact absurd rfl ht
      · refine ⟨?_, ?_⟩
        · simp only [splitSymbolLibrary]
          constructor
          · intro _
            refine Or.inr (Or.inr ?_)
            rintro h' rest' hr hs
            cases hr
            cases hs
          · intro _; exact ⟨_, rfl⟩
        · intro rest' hr; cases hr
      · refine ⟨?_, ?_⟩
        · simp only [splitSymbolLibrary]
          constructor
          · intro _
            refine Or.inr (Or.inr ?_)
            rintro h' rest' hr hs
            cases hr
            cases hs
          · intro _; exact ⟨_, rfl⟩
        · intro rest' hr; cases hr

/-- Witness for C5 at a concrete document with one entry and one
metadata child. -/
theorem c5_split_witness :
    splitSymbolLibrary
        (.list [.sym "kicad_symbol_lib", .list [.sym "version"],
          .list [.sym "symbol", .str "a"]]) =
      .ok (.sym "kicad_symbol_lib", [.list [.sym "version"]],
        [.list [.sym "symbol", .str "a"]]) :=
  (c5_split_fails_iff_and_partitions _).2 _ rfl

/-- C8: `_symbol_entry_name` fails exactly when the entry has fewer than
2 elements (Python length: list length, or character count for a stray
atom entry); otherwise it returns the second element's textual form —
the bare value when that element is a symbol, else its literal text (a
stray atom entry yields its second character). -/
theorem c8_entry_name_fails_iff (entry : SExp) :
    ((∃ e, symbolEntryName entry = .error e) ↔ pyLen entry < 2) ∧
    (∀ a b rest, entry = .list (a :: b :: rest) →
      symbolEntryName entry = .ok (match b with | .sym s => s | t => pyStr t)) ∧
    (∀ s, entry = .sym s ∨ entry = .str s → ∀ c0 c1 cs, s.data = c0 :: c1 :: cs →
      symbolEntryName entry = .ok ⟨[c1]⟩) := by
  rcases entry with s | s | xs
  · refine ⟨?_, by simp, ?_⟩
    · rcases hs : s.data with _ | ⟨c0, _ | ⟨c1, cs⟩⟩ <;>
        simp [symbolEntryName, hs, pyLen]
    · rintro s' (hs | hs) c0 c1 cs hd <;> cases hs
      simp [symbolEntryName, hd]
  · refine ⟨?_, by simp, ?_⟩
    · rcases hs : s.data with _ | ⟨c0, _ | ⟨c1, cs⟩⟩ <;>
        simp [symbolEntryName, hs, pyLen]
    · rintro s' (hs | hs) c0 c1 cs hd <;> cases hs
      simp [symbolEntryName, hd]
  · refine ⟨?_, ?_, by simp⟩
    · rcases xs with _ | ⟨a, _ | ⟨b, rest⟩⟩ <;>
        simp [symbolEntryName, pyLen]
    · rintro a b rest h
      cases h
      simp [symbolEntryName]

/-- Witness for C8 at a concrete entry whose name is a quoted literal. -/
theorem c8_entry_name_witness :
    symbolEntryName (.list [.sym "symbol", .str "R1", .list [.sym "pin"]]) = .ok "R1" :=
  (c8_entry_name_fails_iff _).2.1 _ _ _ rfl

theorem buildRecord_eq_pairs (pairs : List SExp) :
    buildRecord pairs =
      (pairs.filterMap (fun c =>
        match c with
        | SExp.list [k, v] => some (pyStr k, pyStr v)
        | _ => none)).foldl (fun d kv => recordInsert d kv.1 kv.2) [] := by
  suffices h : ∀ (ps : List SExp) (acc : List (String × String)),
      ps.foldl
        (fun record pair =>
          match pair with
          | SExp.list [k, v] => recordInsert record (pyStr k) (pyStr v)
          | _ => record) acc
      = (ps.filterMap (fun c =>
          match c with
          | SExp.list [k, v] => some (pyStr k, pyStr v)
          | _ => none)).foldl (fun d kv => recordInsert d kv.1 kv.2) acc from
    h pairs []
  intro ps
  induction ps with
  | nil => intro acc; rfl
  | cons p ps ih =>
    intro acc
    rcases p with s | s | xs
    · simpa using ih _
    · simpa using ih _
    · rcases xs with _ | ⟨k, _ | ⟨v, _ | ⟨w, ws⟩⟩⟩
      · simpa using ih _
      · simpa using ih _
      · simpa using ih _
      · simpa using ih _

theorem parseLibTable_loop (nodes : List SExp) : ∀ acc,
    nodes.foldl
      (fun libraries node =>
        match node with
        | SExp.list (.sym hv :: rest) =>
          if hv = "lib" then
            if (buildRecord rest).isEmpty then libraries
            else libraries ++ [buildRecord rest]
          else libraries
        | _ => libraries) acc
    = acc ++ nodes.filterMap libRecordOf := by
  induction nodes with
  | nil => intro acc; simp
  | cons node nodes ih =>
    intro acc
    rw [List.foldl_cons, List.filterMap_cons, ih]
    rcases node with s | s | xs
    · simp [libRecordOf]
    · simp [libRecordOf]
    · rcases xs with _ | ⟨h, rest⟩
      · simp [libRecordOf]
      · rcases h with hv | hv | hs
        · by_cases hl : hv = "lib"
          · subst hl
            by_cases hr : (buildRecord rest).isEmpty <;>
              simp [libRecordOf, hr]
          · simp [libRecordOf, hl]
        · simp [libRecordOf]
        · simp [libRecordOf]

/-- C6: the table reader returns an empty record list for a missing file
and for text that fails to parse, and for parsed text it returns exactly
the records the claim describes: one per top-level child list whose head
atom equals `lib`, built from that list's remaining children, skipping
children that are not exactly 2-element pairs and discarding records
with zero pairs. -/
theorem c6_table_reader_tolerant :
    parseLibTable none = [] ∧
    (∀ t, parse t = none → parseLibTable (some t) = []) ∧
    (∀ t root, parse t = some root → parseLibTable (some t) = specReadTable root) := by
  refine ⟨rfl, ?_, ?_⟩
  · intro t ht
    simp [parseLibTable, ht]
  · intro t root ht
    rcases root with s | s | nodes
    · simp [parseLibTable, ht, specReadTable]
    · simp [parseLibTable, ht, specReadTable]
    · simp only [parseLibTable, ht]
      rw [parseLibTable_loop, List.nil_append]
      simp only [specReadTable]
      apply List.filterMap_congr
      intro node _
      rcases node with s | s | xs
      · rfl
      · rfl
      · rcases xs with _ | ⟨h, rest⟩
        · rfl
        · rcases h with hv | hv | hs
          · by_cases hl : hv = "lib"
            · subst hl
              simp only [libRecordOf, if_pos rfl, buildRecord_eq_pairs]
            · simp [libRecordOf, hl]
          · rfl
          · rfl

/-- Witness for C6 at a table with one well-formed `lib` record, one
empty `lib` record and a stray child. -/
theorem c6_table_reader_witness :
    parse "(sym_lib_table (lib (name \"A\") (uri u) x) (lib) y)" =
      some (.list [.sym "sym_lib_table",
        .list [.sym "lib", .list [.sym "name", .str "A"],
          .list [.sym "uri", .sym "u"], .sym "x"],
        .list [.sym "lib"], .sym "y"]) ∧
    parseLibTable (some "(sym_lib_table (lib (name \"A\") (uri u) x) (lib) y)") =
      specReadTable (.list [.sym "sym_lib_table",
        .list [.sym "lib", .list [.sym "name", .str "A"],
          .list [.sym "uri", .sym "u"], .sym "x"],
        .list [.sym "lib"], .sym "y"]) :=
  ⟨rfl, c6_table_reader_tolerant.2.2 _ _ rfl⟩

theorem entryNames_cons_elim {e : SExp} {es : List SExp} {names : List String}
    (h : entryNames (e :: es) = .ok names) :
    ∃ n ns, symbolEntryName e = .ok n ∧ entryNames es = .ok ns ∧ names = n :: ns := by
  cases he : symbolEntryName e with
  | error err => simp [entryNames, he] at h
  | ok n =>
    cases hes : entryNames es with
    | error err => simp [entryNames, he, hes] at h
    | ok ns =>
      simp only [entryNames, he, hes, Except.ok.injEq] at h
      exact ⟨n, ns, rfl, rfl, h.symm⟩

theorem entryNames_append {xs ys : List SExp} {nxs nys : List String}
    (hx : entryNames xs = .ok nxs) (hy : entryNames ys = .ok nys) :
    entryNames (xs ++ ys) = .ok (nxs ++ nys) := by
  induction xs generalizing nxs with
  | nil =>
    simp only [entryNames, Except.ok.injEq] at hx
    subst hx
    simpa using hy
  | cons e es ih =>
    obtain ⟨n, ns, he, hes, rfl⟩ := entryNames_cons_elim hx
    simp [entryNames, he, ih hes]

theorem entryNames_length : ∀ {es : List SExp} {ns : List String},
    entryNames es = .ok ns → ns.length = es.length := by
  intro es
  induction es with
  | nil => intro ns h; simp only [entryNames, Except.ok.injEq] at h; subst h; rfl
  | cons e es ih =>
    intro ns h
    obtain ⟨n, ms, _, hes, rfl⟩ := entryNames_cons_elim h
    simp [ih hes]

theorem hasKey_iff {d : List (String × Nat)} {m : String} :
    hasKey d m = true ↔ ∃ p ∈ d, p.1 = m := by
  simp [hasKey, List.any_eq_true]

theorem hasKey_dictInsert (d : List (String × Nat)) (k : String) (v : Nat) (m : String) :
    hasKey (dictInsert d k v) m = true ↔ hasKey d m = true ∨ m = k := by
  unfold dictInsert
  by_cases hd : hasKey d k
  · rw [if_pos hd]
    simp only [hasKey_iff]
    constructor
    · rintro ⟨p, hp, hm⟩
      rw [List.mem_map] at hp
      obtain ⟨q, hq, rfl⟩ := hp
      by_cases hqk : q.1 = k
      · right
        have h' : k = m := by simpa [hqk] using hm
        exact h'.symm
      · left; exact ⟨q, hq, by simpa [hqk] using hm⟩
    · rintro (⟨p, hp, hm⟩ | hmk)
      · by_cases hpk : p.1 = k
        · obtain ⟨q, hq, hqk⟩ := hasKey_iff.mp hd
          refine ⟨(k, v), List.mem_map.mpr ⟨q, hq, by simp [hqk]⟩, ?_⟩
          rw [← hm, hpk]
        · exact ⟨p, List.mem_map.mpr ⟨p, hp, by simp [hpk]⟩, hm⟩
      · obtain ⟨q, hq, hqk⟩ := hasKey_iff.mp hd
        exact ⟨(k, v), List.mem_map.mpr ⟨q, hq, by simp [hqk]⟩, hmk.symm⟩
  · rw [if_neg hd]
    simp only [hasKey_iff]
    constructor
    · rintro ⟨p, hp, hm⟩
      rcases List.mem_append.mp hp with h | h
      · exact Or.inl ⟨p, h, hm⟩
      · right
        rw [List.mem_singleton] at h
        rw [← hm, h]
    · rintro (⟨p, hp, hm⟩ | hmk)
      · exact ⟨p, List.mem_append.mpr (Or.inl hp), hm⟩
      · exact ⟨(k, v), List.mem_append.mpr (Or.inr (by simp)), hmk.symm⟩

theorem mergeLoop_ok_of_fresh :
    ∀ (symsIn : List SExp) (names : List String) (out : List SExp)
      (idx : List (String × Nat)) (added : Nat),
      entryNames symsIn = .ok names → names.Nodup →
      (∀ n ∈ names, hasKey idx n = false) →
      mergeLoop out idx added symsIn = .ok (out ++ symsIn, added + symsIn.length) := by
  intro symsIn
  induction symsIn with
  | nil =>
    intro names out idx added h _ _
    simp only [entryNames, Except.ok.injEq] at h
    subst h
    simp [mergeLoop]
  | cons e es ih =>
    intro names out idx added h hnd hfresh
    obtain ⟨n, ns, he, hes, rfl⟩ := entryNames_cons_elim h
    have hnk : hasKey idx n = false := hfresh n (by simp)
    have hnd' : ns.Nodup := (List.nodup_cons.mp hnd).2
    have hnin : n ∉ ns := (List.nodup_cons.mp hnd).1
    have hfresh' : ∀ m ∈ ns, hasKey (dictInsert idx n out.length) m = false := by
      intro m hm
      rw [Bool.eq_false_iff]
      intro htrue
      rcases (hasKey_dictInsert _ _ _ _).mp htrue with hk | rfl
      · rw [hfresh m (List.mem_cons_of_mem _ hm)] at hk
        cases hk
      · exact hnin hm
    simp only [mergeLoop, he, hnk, Bool.false_eq_true, if_false]
    rw [ih ns (out ++ [e]) (dictInsert idx n out.length) (added + 1) hes hnd' hfresh']
    have h1 : (out ++ [e]) ++ es = out ++ e :: es := by simp
    have h2 : added + 1 + es.length = added + (es.length + 1) := by omega
    rw [h1, h2]
    rfl

theorem mergeLoop_error_of_dup :
    ∀ (symsIn : List SExp) (names : List String) (out : List SExp)
      (idx : List (String × Nat)) (added : Nat),
      entryNames symsIn = .ok names →
      (¬ names.Nodup ∨ ∃ n ∈ names, hasKey idx n = true) →
      ∃ err, mergeLoop out idx added symsIn = .error err := by
  intro symsIn
  induction symsIn with
  | nil =>
    intro names out idx added h hbad
    simp only [entryNames, Except.ok.injEq] at h
    subst h
    rcases hbad with hnd | ⟨n, hn, _⟩
    · exact absurd List.nodup_nil hnd
    · simp at hn
  | cons e es ih =>
    intro names out idx added h hbad
    obtain ⟨n, ns, he, hes, rfl⟩ := entryNames_cons_elim h
    by_cases hk : hasKey idx n = true
    · exact ⟨PyErr.assertionError
        ("Symbol '" ++ n ++ "' is already present in the target library."),
        by simp [mergeLoop, he, hk]⟩
    · have hkf : hasKey idx n = false := Bool.eq_false_iff.mpr hk
      have step : mergeLoop out idx added (e :: es) =
          mergeLoop (out ++ [e]) (dictInsert idx n out.length) (added + 1) es := by
        simp [mergeLoop, he, hkf]
      rw [step]
      refine ih ns _ _ _ hes ?_
      rcases hbad with hnd | ⟨m, hm, hkm⟩
      · by_cases hmem : n ∈ ns
        · exact Or.inr ⟨n, hmem, (hasKey_dictInsert _ _ _ _).mpr (Or.inr rfl)⟩
        · exact Or.inl (fun hns => hnd (List.nodup_cons.mpr ⟨hmem, hns⟩))
      · rcases List.mem_cons.mp hm with rfl | hm'
        · rw [hkf] at hkm; cases hkm
        · exact Or.inr ⟨m, hm', (hasKey_dictInsert _ _ _ _).mpr (Or.inl hkm)⟩

theorem mergeLoop_ok_inv :
    ∀ (symsIn : List SExp) (out : List SExp) (idx : List (String × Nat))
      (added : Nat) (res : List SExp) (a : Nat),
      mergeLoop out idx added symsIn = .ok (res, a) →
      ∃ names, entryNames symsIn = .ok names ∧ names.Nodup ∧
        (∀ n ∈ names, hasKey idx n = false) ∧
        res = out ++ symsIn ∧ a = added + symsIn.length := by
  intro symsIn
  induction symsIn with
  | nil =>
    intro out idx added res a h
    simp only [mergeLoop, Except.ok.injEq, Prod.mk.injEq] at h
    obtain ⟨rfl, rfl⟩ := h
    exact ⟨[], rfl, List.nodup_nil, by simp, by simp, by simp⟩
  | cons e es ih =>
    intro out idx added res a h
    cases he : symbolEntryName e with
    | error err => simp only [mergeLoop, he] at h; cases h
    | ok n =>
      simp only [mergeLoop, he] at h
      by_cases hk : hasKey idx n = true
      · simp [hk] at h
      · have hkf : hasKey idx n = false := Bool.eq_false_iff.mpr hk
        rw [hkf] at h
        simp only [Bool.false_eq_true, if_false] at h
        obtain ⟨ns, hes, hnd, hfresh, hres, ha⟩ := ih _ _ _ _ _ h
        refine ⟨n :: ns, by simp [entryNames, he, hes], ?_, ?_, ?_, ?_⟩
        · refine List.nodup_cons.mpr ⟨?_, hnd⟩
          intro hmem
          have hf := hfresh n hmem
          have ht : hasKey (dictInsert idx n out.length) n = true :=
            (hasKey_dictInsert _ _ _ _).mpr (Or.inr rfl)
          rw [hf] at ht
          cases ht
        · intro m hm
          rcases List.mem_cons.mp hm with rfl | hm'
          · exact hkf
          · have hf := hfresh m hm'
            rw [Bool.eq_false_iff]
            intro ht
            have : hasKey (dictInsert idx n out.length) m = true :=
              (hasKey_dictInsert _ _ _ _).mpr (Or.inl ht)
            rw [hf] at this
            cases this
        · rw [hres]; simp
        · rw [ha]; simp only [List.length_cons]; omega

theorem buildIndexAux_inv :
    ∀ (syms : List SExp) (i : Nat) (d d' : List (String × Nat)),
      buildIndexAux i d syms = .ok d' →
      ∃ names, entryNames syms = .ok names ∧
        ∀ m, hasKey d' m = true ↔ (hasKey d m = true ∨ m ∈ names) := by
  intro syms
  induction syms with
  | nil =>
    intro i d d' h
    simp only [buildIndexAux, Except.ok.injEq] at h
    subst h
    exact ⟨[], rfl, by simp⟩
  | cons e es ih =>
    intro i d d' h
    cases he : symbolEntryName e with
    | error err => simp only [buildIndexAux, he] at h; cases h
    | ok n =>
      simp only [buildIndexAux, he] at h
      obtain ⟨ns, hes, hiff⟩ := ih _ _ _ h
      refine ⟨n :: ns, by simp [entryNames, he, hes], ?_⟩
      intro m
      rw [hiff m, hasKey_dictInsert]
      constructor
      · rintro ((hk | rfl) | hm)
        · exact Or.inl hk
        · exact Or.inr (by simp)
        · exact Or.inr (List.mem_cons_of_mem _ hm)
      · rintro (hk | hm)
        · exact Or.inl (Or.inl hk)
        · rcases List.mem_cons.mp hm with rfl | hm'
          · exact Or.inl (Or.inr rfl)
          · exact Or.inr hm'

theorem split_ok_inv {ast header : SExp} {meta0 syms : List SExp}
    (h : splitSymbolLibrary ast = .ok (header, meta0, syms)) :
    header = .sym "kicad_symbol_lib" ∧
    ∃ rest, ast = .list (.sym "kicad_symbol_lib" :: rest) ∧
      meta0 = rest.filter (fun n => !isSymbolEntry n) ∧
      syms = rest.filter isSymbolEntry := by
  rcases ast with s | s | xs
  · simp [splitSymbolLibrary] at h
  · simp [splitSymbolLibrary] at h
  · rcases xs with _ | ⟨hh, rest⟩
    · simp [splitSymbolLibrary] at h
    · rcases hh with t | t | hs
      · by_cases ht : t = "kicad_symbol_lib"
        · subst ht
          simp only [splitSymbolLibrary, if_true, Except.ok.injEq, Prod.mk.injEq] at h
          obtain ⟨h1, h2, h3⟩ := h
          exact ⟨h1.symm, rest, rfl, h2.symm, h3.symm⟩
        · simp [splitSymbolLibrary, ht] at h
      · simp [splitSymbolLibrary] at h
      · simp [splitSymbolLibrary] at h

theorem split_recombine (meta0 syms : List SExp)
    (hm : ∀ x ∈ meta0, isSymbolEntry x = false)
    (hs : ∀ e ∈ syms, isSymbolEntry e = true) :
    splitSymbolLibrary (.list (.sym "kicad_symbol_lib" :: (meta0 ++ syms))) =
      .ok (.sym "kicad_symbol_lib", meta0, syms) := by
  simp only [splitSymbolLibrary, if_pos rfl, List.filter_append]
  rw [List.filter_eq_self.mpr (fun a ha => by simp [hm a ha]),
    List.filter_eq_nil_iff.mpr (fun a ha => by simp [hs a ha]),
    List.filter_eq_nil_iff.mpr (fun a ha => by simp [hm a ha]),
    List.filter_eq_self.mpr hs]
  simp

theorem exceptBind_ok {α β : Type} (a : α) (f : α → Except PyErr β) :
    (Except.ok a : Except PyErr α) >>= f = f a := rfl

theorem exceptBind_error {α β : Type} (e : PyErr) (f : α → Except PyErr β) :
    (Except.error e : Except PyErr α) >>= f = .error e := rfl

theorem exceptPure {α : Type} (a : α) : (pure a : Except PyErr α) = .ok a := rfl

theorem isSymbolEntry_of_mem_filter {l : List SExp} {x : SExp}
    (h : x ∈ l.filter isSymbolEntry) : isSymbolEntry x = true :=
  List.of_mem_filter h

theorem not_isSymbolEntry_of_mem_filter {l : List SExp} {x : SExp}
    (h : x ∈ l.filter (fun n => !isSymbolEntry n)) : isSymbolEntry x = false := by
  have := List.of_mem_filter h
  simpa using this

/-- C9 (amended): the name index consulted by the append loop also
records each appended entry, so an incoming document that itself holds
two entries with the same name makes the merge fail for every existing
document (absent, disjoint or otherwise); and — provided the existing
document's own entry names are pairwise distinct — every merge that
returns successfully yields an entry list with pairwise-distinct names.
(The unconditioned claim is false: an existing document that already
holds duplicate names survives a successful merge, see the
counterexample.) -/
theorem c9_merge_unique_names :
    (∀ existingAst incomingAst headerIn metaIn symsIn names,
      splitSymbolLibrary incomingAst = .ok (headerIn, metaIn, symsIn) →
      entryNames symsIn = .ok names → ¬ names.Nodup →
      ∀ r, mergeSymbolLibraries existingAst incomingAst ≠ .ok r) ∧
    (∀ existingAst incomingAst merged added,
      mergeSymbolLibraries existingAst incomingAst = .ok (merged, added) →
      (∀ ex headerE metaE symsE namesE, existingAst = some ex →
        splitSymbolLibrary ex = .ok (headerE, metaE, symsE) →
        entryNames symsE = .ok namesE → namesE.Nodup) →
      ∃ header meta0 entries names,
        splitSymbolLibrary merged = .ok (header, meta0, entries) ∧
        entryNames entries = .ok names ∧ names.Nodup) := by
  constructor
  · intro existingAst incomingAst headerIn metaIn symsIn names hsi hni hnd r hok
    rcases existingAst with _ | ex
    · obtain ⟨err, herr⟩ :=
        mergeLoop_error_of_dup symsIn names [] [] 0 hni (Or.inl hnd)
      simp [mergeSymbolLibraries, hsi, herr, bind, Except.bind, pure,
        Except.pure, buildIndexAux] at hok
    · cases hse : splitSymbolLibrary ex with
      | error err =>
        simp [mergeSymbolLibraries, hsi, hse, bind, Except.bind] at hok
      | ok trip =>
        obtain ⟨headerE, metaE, symsE⟩ := trip
        cases hbi : buildIndexAux 0 [] symsE with
        | error err =>
          simp [mergeSymbolLibraries, hsi, hse, hbi, bind, Except.bind] at hok
        | ok idx =>
          obtain ⟨err, herr⟩ :=
            mergeLoop_error_of_dup symsIn names symsE idx 0 hni (Or.inl hnd)
          simp [mergeSymbolLibraries, hsi, hse, hbi, herr, bind, Except.bind] at hok
  · intro existingAst incomingAst merged added hok hexnodup
    cases hsi : splitSymbolLibrary incomingAst with
    | error err => simp [mergeSymbolLibraries, hsi, bind, Except.bind] at hok
    | ok tripI =>
      obtain ⟨headerIn, metaIn, symsIn⟩ := tripI
      obtain ⟨hhi, restI, hasti, hmi, hsymi⟩ := split_ok_inv hsi
      rcases existingAst with _ | ex
      · cases hml : mergeLoop [] [] 0 symsIn with
        | error err =>
          simp [mergeSymbolLibraries, hsi, hml, bind, Except.bind, pure,
            Except.pure, buildIndexAux] at hok
        | ok pr =>
          obtain ⟨res, a⟩ := pr
          simp only [mergeSymbolLibraries, hsi, hml, bind, Except.bind, pure,
            Except.pure, buildIndexAux, Except.ok.injEq, Prod.mk.injEq] at hok
          obtain ⟨hm, -⟩ := hok
          obtain ⟨names, hnames, hnd, -, hres, -⟩ := mergeLoop_ok_inv symsIn [] [] 0 res a hml
          rw [List.nil_append] at hres
          subst hres
          refine ⟨.sym "kicad_symbol_lib", metaIn, res, names, ?_, hnames, hnd⟩
          rw [hhi] at hm
          rw [← hm]
          refine split_recombine metaIn res ?_ ?_
          · intro x hx; rw [hmi] at hx; exact not_isSymbolEntry_of_mem_filter hx
          · intro x hx; rw [hsymi] at hx; exact isSymbolEntry_of_mem_filter hx
      · cases hse : splitSymbolLibrary ex with
        | error err =>
          simp [mergeSymbolLibraries, hsi, hse, bind, Except.bind] at hok
        | ok tripE =>
          obtain ⟨headerE, metaE, symsE⟩ := tripE
          obtain ⟨hhe, restE, haste, hme, hsyme⟩ := split_ok_inv hse
          cases hbi : buildIndexAux 0 [] symsE with
          | error err =>
            simp [mergeSymbolLibraries, hsi, hse, hbi, bind, Except.bind] at hok
          | ok idx =>
            cases hml : mergeLoop symsE idx 0 symsIn with
            | error err =>
              simp [mergeSymbolLibraries, hsi, hse, hbi, hml, bind, Except.bind] at hok
            | ok pr =>
              obtain ⟨res, a⟩ := pr
              simp only [mergeSymbolLibraries, hsi, hse, hbi, hml, bind, Except.bind,
                pure, Except.pure, Except.ok.injEq, Prod.mk.injEq] at hok
              obtain ⟨hm, -⟩ := hok
              obtain ⟨namesE, hnamesE, hkeys⟩ := buildIndexAux_inv symsE 0 [] idx hbi
              obtain ⟨namesI, hnamesI, hndI, hfresh, hres, -⟩ :=
                mergeLoop_ok_inv symsIn symsE idx 0 res a hml
              subst hres
              have hndE : namesE.Nodup := hexnodup ex headerE metaE symsE namesE rfl hse hnamesE
              have hdisj : namesE.Disjoint namesI := by
                intro x hxE hxI
                have hf := hfresh x hxI
                have hkt : hasKey idx x = true := by
                  rw [hkeys x]
                  exact Or.inr hxE
                rw [hf] at hkt
                cases hkt
              refine ⟨.sym "kicad_symbol_lib", metaE, symsE ++ symsIn,
                namesE ++ namesI, ?_, entryNames_append hnamesE hnamesI,
                List.Nodup.append hndE hndI hdisj⟩
              rw [hhe] at hm
              rw [← hm]
              refine split_recombine metaE (symsE ++ symsIn) ?_ ?_
              · intro x hx; rw [hme] at hx; exact not_isSymbolEntry_of_mem_filter hx
              · intro x hx
                rcases List.mem_append.mp hx with hx' | hx'
                · rw [hsyme] at hx'; exact isSymbolEntry_of_mem_filter hx'
                · rw [hsymi] at hx'; exact isSymbolEntry_of_mem_filter hx'

/-- C9 counterexample: the code accepts a merge whose existing document
already carries two entries both named `a` (the dict comprehension
silently collapses the duplicate), and the successful result keeps both
— so not every successful merge has pairwise-distinct entry names. -/
theorem c9_merge_unique_names_cex :
    mergeSymbolLibraries
        (some (.list [.sym "kicad_symbol_lib",
          .list [.sym "symbol", .str "a"], .list [.sym "symbol", .str "a"]]))
        (.list [.sym "kicad_symbol_lib"]) =
      .ok (.list [.sym "kicad_symbol_lib",
        .list [.sym "symbol", .str "a"], .list [.sym "symbol", .str "a"]], 0) ∧
    entryNames [SExp.list [.sym "symbol", .str "a"], .list [.sym "symbol", .str "a"]] =
      .ok ["a", "a"] ∧
    ¬ (["a", "a"] : List String).Nodup :=
  ⟨rfl, rfl, by decide⟩

/-- Witness for C9: an incoming document with an internal duplicate name
cannot merge successfully even into an absent destination. -/
theorem c9_merge_unique_names_witness :
    splitSymbolLibrary (.list [.sym "kicad_symbol_lib",
        .list [.sym "symbol", .str "b"], .list [.sym "symbol", .str "b"]]) =
      .ok (.sym "kicad_symbol_lib", [],
        [.list [.sym "symbol", .str "b"], .list [.sym "symbol", .str "b"]]) ∧
    entryNames [SExp.list [.sym "symbol", .str "b"], .list [.sym "symbol", .str "b"]] =
      .ok ["b", "b"] ∧
    mergeSymbolLibraries none (.list [.sym "kicad_symbol_lib",
        .list [.sym "symbol", .str "b"], .list [.sym "symbol", .str "b"]]) ≠
      .ok (.list [.sym "kicad_symbol_lib",
        .list [.sym "symbol", .str "b"], .list [.sym "symbol", .str "b"]], 2) :=
  ⟨rfl, rfl,
    c9_merge_unique_names.1 none
      (.list [.sym "kicad_symbol_lib",
        .list [.sym "symbol", .str "b"], .list [.sym "symbol", .str "b"]])
      (.sym "kicad_symbol_lib") []
      [.list [.sym "symbol", .str "b"], .list [.sym "symbol", .str "b"]]
      ["b", "b"] rfl rfl (by decide) _⟩

theorem rejectAppendLoop_ok_of_fresh :
    ∀ (pairs : List (SExp × String)) (curNames : List String) (acc : List SExp),
      (pairs.map Prod.snd).Nodup →
      (∀ p ∈ pairs, p.2 ∉ curNames) →
      rejectAppendLoop curNames acc pairs = .ok (acc ++ pairs.map Prod.fst) := by
  intro pairs
  induction pairs with
  | nil => intro curNames acc _ _; simp [rejectAppendLoop]
  | cons p rest ih =>
    intro curNames acc hnd hfresh
    obtain ⟨e, n⟩ := p
    have hnc : curNames.contains n = false := by
      rw [Bool.eq_false_iff]
      intro hc
      exact hfresh (e, n) (by simp) (List.elem_iff.mp hc)
    have hn2 : n ∉ rest.map Prod.snd := by
      simpa using (List.nodup_cons.mp hnd).1
    have hfresh' : ∀ q ∈ rest, q.2 ∉ curNames ++ [n] := by
      intro q hq hmem
      rcases List.mem_append.mp hmem with h | h
      · exact hfresh q (List.mem_cons_of_mem _ hq) h
      · rw [List.mem_singleton] at h
        exact hn2 (h ▸ List.mem_map_of_mem Prod.snd hq)
    simp only [rejectAppendLoop, hnc, Bool.false_eq_true, if_false]
    rw [ih (curNames ++ [n]) (acc ++ [e]) (List.nodup_cons.mp hnd).2 hfresh']
    simp

theorem findNameIdx_none_iff {n : String} : ∀ {cur : List (SExp × String)},
    findNameIdx n cur = none ↔ ∀ p ∈ cur, p.2 ≠ n := by
  intro cur
  induction cur with
  | nil => simp [findNameIdx]
  | cons p ps ih =>
    by_cases hpn : p.2 = n
    · simp [findNameIdx, hpn]
    · simp [findNameIdx, hpn, Option.map_eq_none', ih]

theorem findNameIdx_some_get : ∀ {cur : List (SExp × String)} {n : String} {i : Nat},
    findNameIdx n cur = some i → ∃ p, cur.get? i = some p ∧ p.2 = n := by
  intro cur
  induction cur with
  | nil => intro n i h; simp [findNameIdx] at h
  | cons p ps ih =>
    intro n i h
    by_cases hpn : p.2 = n
    · rw [findNameIdx, if_pos hpn] at h
      injection h with hi
      subst hi
      exact ⟨p, rfl, hpn⟩
    · rw [findNameIdx, if_neg hpn] at h
      cases hj : findNameIdx n ps with
      | none => rw [hj] at h; cases h
      | some j =>
        rw [hj] at h
        simp only [Option.map_some', Option.some.injEq] at h
        obtain ⟨q, hq, hqn⟩ := ih hj
        refine ⟨q, ?_, hqn⟩
        rw [← h]
        simpa using hq

theorem set_get_self {α : Type} : ∀ (l : List α) (i : Nat) (a : α),
    l.get? i = some a → l.set i a = l := by
  intro l
  induction l with
  | nil => intro i a h; simp at h
  | cons x xs ih =>
    intro i a h
    cases i with
    | zero =>
      simp only [List.get?_cons_zero, Option.some.injEq] at h
      rw [← h]
      rfl
    | succ j =>
      simp only [List.get?_cons_succ] at h
      simp [List.set_cons_succ, ih j a h]

theorem map_snd_set_name {cur : List (SExp × String)} {i : Nat} {e : SExp} {n : String}
    (h : findNameIdx n cur = some i) :
    (cur.set i (e, n)).map Prod.snd = cur.map Prod.snd := by
  obtain ⟨p, hp, hpn⟩ := findNameIdx_some_get h
  rw [List.map_set]
  apply set_get_self
  rw [List.get?_map, hp]
  simp [hpn]

theorem overwrite_set_step (e : SExp) (n : String) (inc2 : List (SExp × String)) :
    ∀ (cur : List (SExp × String)) (i : Nat),
      (cur.map Prod.snd).Nodup →
      findNameIdx n cur = some i →
      n ∉ inc2.map Prod.snd →
      (cur.set i (e, n)).map (fun p =>
          match inc2.find? (fun q => q.2 = p.2) with
          | some q => (q.1, p.2)
          | none => p)
        = cur.map (fun p =>
          match ((e, n) :: inc2).find? (fun q => q.2 = p.2) with
          | some q => (q.1, p.2)
          | none => p) := by
  intro cur
  induction cur with
  | nil => intro i _ h _; simp [findNameIdx] at h
  | cons p cur ih =>
    intro i hnd hfind hnin
    simp only [List.map_cons] at hnd
    have hfnone : inc2.find? (fun q => q.2 = n) = none := by
      refine List.find?_eq_none.mpr ?_
      intro q hq
      simp only [decide_eq_true_eq]
      intro h'
      exact hnin (h' ▸ List.mem_map_of_mem Prod.snd hq)
    by_cases hpn : p.2 = n
    · rw [findNameIdx, if_pos hpn] at hfind
      injection hfind with hi
      subst hi
      rw [List.set_cons_zero, List.map_cons, List.map_cons]
      have hn_not_cur : n ∉ cur.map Prod.snd :=
        hpn ▸ (List.nodup_cons.mp hnd).1
      congr 1
      · simp [hfnone, List.find?_cons, hpn]
      · apply List.map_congr_left
        intro q hq
        have hqn : ¬ (n = q.2) := by
          intro h'
          exact hn_not_cur (h' ▸ List.mem_map_of_mem Prod.snd hq)
        simp [List.find?_cons, hqn]
    · rw [findNameIdx, if_neg hpn] at hfind
      cases hj : findNameIdx n cur with
      | none => rw [hj] at hfind; cases hfind
      | some j =>
        rw [hj] at hfind
        simp only [Option.map_some', Option.some.injEq] at hfind
        subst hfind
        rw [List.set_cons_succ, List.map_cons, List.map_cons]
        congr 1
        · simp [List.find?_cons, show ¬ (n = p.2) from fun h => hpn h.symm]
        · exact ih j (List.nodup_cons.mp hnd).2 hj hnin

theorem fresh_pred_congr {cur cur' : List (SExp × String)}
    (h : cur.map Prod.snd = cur'.map Prod.snd) (x : String) :
    decide (∀ p ∈ cur, p.2 ≠ x) = decide (∀ p ∈ cur', p.2 ≠ x) := by
  apply decide_eq_decide.mpr
  have key : ∀ (l : List (SExp × String)),
      (∀ p ∈ l, p.2 ≠ x) ↔ ∀ m ∈ l.map Prod.snd, m ≠ x := by
    intro l
    constructor
    · intro h' m hm
      obtain ⟨p, hp, rfl⟩ := List.mem_map.mp hm
      exact h' p hp
    · intro h' p hp
      exact h' p.2 (List.mem_map_of_mem Prod.snd hp)
  rw [key, key, h]

theorem overwriteLoop_spec :
    ∀ (inc cur : List (SExp × String)) (added updated : Nat),
      (inc.map Prod.snd).Nodup → (cur.map Prod.snd).Nodup →
      overwriteLoop cur added updated inc =
        (overwriteSpecEntries cur inc,
          added + overwriteSpecAdded cur inc,
          updated + overwriteSpecUpdated cur inc) := by
  intro inc
  induction inc with
  | nil =>
    intro cur added updated _ _
    simp [overwriteLoop, overwriteSpecEntries, overwriteSpecAdded, overwriteSpecUpdated]
  | cons pr rest ih =>
    intro cur added updated hndI hndC
    obtain ⟨e, n⟩ := pr
    simp only [List.map_cons] at hndI
    have hnI : n ∉ rest.map Prod.snd := (List.nodup_cons.mp hndI).1
    have hndI' : (rest.map Prod.snd).Nodup := (List.nodup_cons.mp hndI).2
    have hrestFn : ∀ q ∈ rest, q.2 ≠ n := by
      intro q hq h'
      exact hnI (h' ▸ List.mem_map_of_mem Prod.snd hq)
    cases hf : findNameIdx n cur with
    | some i =>
      have hndC' : ((cur.set i (e, n)).map Prod.snd).Nodup := by
        rw [map_snd_set_name hf]
        exact hndC
      have hmem : n ∈ cur.map Prod.snd := by
        obtain ⟨p, hp, hpn⟩ := findNameIdx_some_get hf
        exact hpn ▸ List.mem_map_of_mem Prod.snd (List.get?_mem hp)
      have hheadpred : decide (∀ p ∈ cur, p.2 ≠ n) = false := by
        rw [decide_eq_false_iff_not]
        intro hall
        obtain ⟨p, hp, hpn⟩ := List.mem_map.mp hmem
        exact hall p hp hpn
      have hfNew :
          rest.filter (fun q => decide (∀ p ∈ cur.set i (e, n), p.2 ≠ q.2)) =
            ((e, n) :: rest).filter (fun q => decide (∀ p ∈ cur, p.2 ≠ q.2)) := by
        rw [List.filter_cons]
        simp only [hheadpred, Bool.false_eq_true, if_false]
        apply List.filter_congr
        intro q _
        exact fresh_pred_congr (map_snd_set_name hf) q.2
      have hfOld :
          ((e, n) :: rest).filter (fun q => !decide (∀ p ∈ cur, p.2 ≠ q.2)) =
            (e, n) :: rest.filter
              (fun q => !decide (∀ p ∈ cur.set i (e, n), p.2 ≠ q.2)) := by
        rw [List.filter_cons]
        simp only [hheadpred, Bool.not_false, if_true]
        congr 1
        apply List.filter_congr
        intro q _
        rw [fresh_pred_congr (map_snd_set_name hf) q.2]
      simp only [overwriteLoop, hf]
      rw [ih (cur.set i (e, n)) added (updated + 1) hndI' hndC']
      simp only [Prod.mk.injEq]
      refine ⟨?_, ?_, ?_⟩
      · unfold overwriteSpecEntries
        rw [overwrite_set_step e n rest cur i hndC hf hnI, hfNew]
      · unfold overwriteSpecAdded
        rw [hfNew]
      · unfold overwriteSpecUpdated
        rw [hfOld]
        simp only [List.length_cons]
        omega
    | none =>
      have hfreshCur : ∀ p ∈ cur, p.2 ≠ n := findNameIdx_none_iff.mp hf
      have hnCur : n ∉ cur.map Prod.snd := by
        intro hx
        obtain ⟨p, hp, hpx⟩ := List.mem_map.mp hx
        exact hfreshCur p hp hpx
      have hndC' : ((cur ++ [(e, n)]).map Prod.snd).Nodup := by
        rw [List.map_append]
        refine List.Nodup.append hndC (by simp) ?_
        intro x hx
        simp only [List.map_cons, List.map_nil, List.mem_singleton]
        intro h'
        exact hnCur (h' ▸ hx)
      have hheadpred : decide (∀ p ∈ cur, p.2 ≠ n) = true := decide_eq_true hfreshCur
      have hfindRestNone : rest.find? (fun q => q.2 = n) = none := by
        refine List.find?_eq_none.mpr ?_
        intro q hq
        simp only [decide_eq_true_eq]
        exact hrestFn q hq
      have happcongr : ∀ x : String,
          (∀ p ∈ cur ++ [(e, n)], p.2 ≠ x) ↔ ((∀ p ∈ cur, p.2 ≠ x) ∧ n ≠ x) := by
        intro x
        constructor
        · intro hall
          exact ⟨fun p hp => hall p (List.mem_append.mpr (Or.inl hp)),
            hall (e, n) (List.mem_append.mpr (Or.inr (by simp)))⟩
        · rintro ⟨hcur, hn⟩ p hp
          rcases List.mem_append.mp hp with h | h
          · exact hcur p h
          · rw [List.mem_singleton] at h
            rw [h]
            exact hn
      have hfNew :
          rest.filter (fun q => decide (∀ p ∈ cur ++ [(e, n)], p.2 ≠ q.2)) =
            rest.filter (fun q => decide (∀ p ∈ cur, p.2 ≠ q.2)) := by
        apply List.filter_congr
        intro q hq
        apply decide_eq_decide.mpr
        rw [happcongr q.2]
        have : n ≠ q.2 := fun h => hrestFn q hq h.symm
        tauto
      have hfOld :
          rest.filter (fun q => !decide (∀ p ∈ cur ++ [(e, n)], p.2 ≠ q.2)) =
            rest.filter (fun q => !decide (∀ p ∈ cur, p.2 ≠ q.2)) := by
        apply List.filter_congr
        intro q hq
        have : decide (∀ p ∈ cur ++ [(e, n)], p.2 ≠ q.2) =
            decide (∀ p ∈ cur, p.2 ≠ q.2) := by
          apply decide_eq_decide.mpr
          rw [happcongr q.2]
          have : n ≠ q.2 := fun h => hrestFn q hq h.symm
          tauto
        rw [this]
      have hmap : (cur ++ [(e, n)]).map
            (fun p => match rest.find? (fun q => q.2 = p.2) with
              | some q => (q.1, p.2)
              | none => p) =
          cur.map (fun p => match ((e, n) :: rest).find? (fun q => q.2 = p.2) with
              | some q => (q.1, p.2)
              | none => p) ++ [(e, n)] := by
        rw [List.map_append]
        congr 1
        · apply List.map_congr_left
          intro q hq
          have hqn : ¬ (n = q.2) := fun h' => hfreshCur q hq h'.symm
          simp [List.find?_cons, hqn]
        · simp [hfindRestNone]
      simp only [overwriteLoop, hf]
      rw [ih (cur ++ [(e, n)]) (added + 1) updated hndI' hndC']
      simp only [Prod.mk.injEq]
      refine ⟨?_, ?_, ?_⟩
      · unfold overwriteSpecEntries
        rw [hmap, hfNew, List.filter_cons]
        simp only [hheadpred, if_true]
        simp [List.append_assoc]
      · unfold overwriteSpecAdded
        rw [hfNew, List.filter_cons]
        simp only [hheadpred, if_true]
        simp only [List.length_cons]
        omega
      · unfold overwriteSpecUpdated
        rw [hfOld, List.filter_cons]
        simp only [hheadpred, Bool.not_true, Bool.false_eq_true, if_false]

/-- C4: merging into an absent destination takes header and metadata
entirely from the incoming document, the merged entry list is exactly
the incoming entry list in order, and the added count equals the number
of incoming entries; the spec-modelled policy engine (the only place an
updated count exists — the repository's merge returns only `added`)
moreover reports `updated = 0` under either policy. -/
theorem c4_merge_into_absent (incomingAst headerIn : SExp)
    (metaIn symsIn : List SExp) (names : List String)
    (hsplit : splitSymbolLibrary incomingAst = .ok (headerIn, metaIn, symsIn))
    (hnames : entryNames symsIn = .ok names) (hnd : names.Nodup) :
    mergeSymbolLibraries none incomingAst =
      .ok (.list (headerIn :: (metaIn ++ symsIn)), symsIn.length) ∧
    ∀ policy, specMerge none incomingAst policy =
      .ok (.list (headerIn :: (metaIn ++ symsIn)), symsIn.length, 0) := by
  have hlen : names.length = symsIn.length := entryNames_length hnames
  have hsnd : (symsIn.zip names).map Prod.snd = names :=
    List.map_snd_zip _ _ hlen.le
  have hfst : (symsIn.zip names).map Prod.fst = symsIn :=
    List.map_fst_zip _ _ hlen.ge
  constructor
  · have hml := mergeLoop_ok_of_fresh symsIn names [] [] 0 hnames hnd
      (fun n _ => rfl)
    simp [mergeSymbolLibraries, hsplit, bind, Except.bind, pure, Except.pure,
      buildIndexAux, hml]
  · intro policy
    cases policy with
    | rejectOnConflict =>
      have hral := rejectAppendLoop_ok_of_fresh (symsIn.zip names) [] []
        (by rw [hsnd]; exact hnd) (by intro p _ hmem; simp at hmem)
      rw [hfst] at hral
      simp [specMerge, hsplit, bind, Except.bind, pure, Except.pure,
        entryNames, hnames, pySorted, List.insertionSort, hral]
    | overwriteOnConflict =>
      have hol := overwriteLoop_spec (symsIn.zip names) [] 0 0
        (by rw [hsnd]; exact hnd) (by simp)
      have hents : overwriteSpecEntries [] (symsIn.zip names) = symsIn.zip names := by
        unfold overwriteSpecEntries
        simp [List.filter_eq_self]
      have hadd : overwriteSpecAdded [] (symsIn.zip names) = symsIn.length := by
        unfold overwriteSpecAdded
        have : (symsIn.zip names).filter
            (fun q => decide (∀ p ∈ ([] : List (SExp × String)), p.2 ≠ q.2)) =
            symsIn.zip names := by
          simp [List.filter_eq_self]
        rw [this, List.length_zip, hlen]
        exact Nat.min_self _
      have hupd : overwriteSpecUpdated [] (symsIn.zip names) = 0 := by
        unfold overwriteSpecUpdated
        simp
      simp [specMerge, hsplit, bind, Except.bind, pure, Except.pure, entryNames,
        hnames, hol, hents, hadd, hupd, hfst]

/-- Witness for C4 at a concrete incoming document with one metadata
node and two entries. -/
theorem c4_merge_into_absent_witness :
    mergeSymbolLibraries none (.list [.sym "kicad_symbol_lib",
        .list [.sym "version"], .list [.sym "symbol", .str "a"],
        .list [.sym "symbol", .str "b"]]) =
      .ok (.list (.sym "kicad_symbol_lib" :: ([SExp.list [.sym "version"]] ++
        [.list [.sym "symbol", .str "a"], .list [.sym "symbol", .str "b"]])), 2) ∧
    specMerge none (.list [.sym "kicad_symbol_lib",
        .list [.sym "version"], .list [.sym "symbol", .str "a"],
        .list [.sym "symbol", .str "b"]]) .overwriteOnConflict =
      .ok (.list (.sym "kicad_symbol_lib" :: ([SExp.list [.sym "version"]] ++
        [.list [.sym "symbol", .str "a"], .list [.sym "symbol", .str "b"]])), 2, 0) :=
  ⟨(c4_merge_into_absent
      (.list [.sym "kicad_symbol_lib", .list [.sym "version"],
        .list [.sym "symbol", .str "a"], .list [.sym "symbol", .str "b"]])
      (.sym "kicad_symbol_lib") [.list [.sym "version"]]
      [.list [.sym "symbol", .str "a"], .list [.sym "symbol", .str "b"]]
      ["a", "b"] rfl rfl (by decide)).1,
    (c4_merge_into_absent
      (.list [.sym "kicad_symbol_lib", .list [.sym "version"],
        .list [.sym "symbol", .str "a"], .list [.sym "symbol", .str "b"]])
      (.sym "kicad_symbol_lib") [.list [.sym "version"]]
      [.list [.sym "symbol", .str "a"], .list [.sym "symbol", .str "b"]]
      ["a", "b"] rfl rfl (by decide)).2 .overwriteOnConflict⟩

/-- C3 (spec-modelled: the `OverwriteOnConflict` policy of §4.5 is not
implemented under src/, whose merge only rejects): under the overwrite
policy every incoming entry whose name is already present replaces the
existing entry at its existing position and increments `updated`, and
every incoming entry with a new name is appended and increments `added`;
the policy is a caller-supplied parameter of the merge. -/
theorem c3_overwrite_policy (existingAst incomingAst headerE headerI : SExp)
    (metaE symsE metaI symsI : List SExp) (namesE namesI : List String)
    (hse : splitSymbolLibrary existingAst = .ok (headerE, metaE, symsE))
    (hsi : splitSymbolLibrary incomingAst = .ok (headerI, metaI, symsI))
    (hne : entryNames symsE = .ok namesE) (hni : entryNames symsI = .ok namesI)
    (hndE : namesE.Nodup) (hndI : namesI.Nodup) :
    specMerge (some existingAst) incomingAst .overwriteOnConflict =
      .ok (.list (headerE :: (metaE ++
          (overwriteSpecEntries (symsE.zip namesE) (symsI.zip namesI)).map Prod.fst)),
        overwriteSpecAdded (symsE.zip namesE) (symsI.zip namesI),
        overwriteSpecUpdated (symsE.zip namesE) (symsI.zip namesI)) := by
  have hlenE : namesE.length = symsE.length := entryNames_length hne
  have hlenI : namesI.length = symsI.length := entryNames_length hni
  have hol := overwriteLoop_spec (symsI.zip namesI) (symsE.zip namesE) 0 0
    (by rw [List.map_snd_zip _ _ hlenI.le]; exact hndI)
    (by rw [List.map_snd_zip _ _ hlenE.le]; exact hndE)
  simp [specMerge, hse, hsi, hne, hni, bind, Except.bind, pure, Except.pure, hol]

/-- Witness for C3: a concrete overwrite merge in which entry `b` is
replaced in place and entry `c` is appended. -/
theorem c3_overwrite_policy_witness :
    specMerge
        (some (.list [.sym "kicad_symbol_lib",
          .list [.sym "symbol", .str "a", .sym "old"],
          .list [.sym "symbol", .str "b", .sym "old"]]))
        (.list [.sym "kicad_symbol_lib",
          .list [.sym "symbol", .str "b", .sym "new"],
          .list [.sym "symbol", .str "c", .sym "new"]])
        .overwriteOnConflict =
      .ok (.list (.sym "kicad_symbol_lib" :: (([] : List SExp) ++
          (overwriteSpecEntries
            ([SExp.list [.sym "symbol", .str "a", .sym "old"],
              .list [.sym "symbol", .str "b", .sym "old"]].zip ["a", "b"])
            ([SExp.list [.sym "symbol", .str "b", .sym "new"],
              .list [.sym "symbol", .str "c", .sym "new"]].zip ["b", "c"])).map Prod.fst)),
        overwriteSpecAdded
          ([SExp.list [.sym "symbol", .str "a", .sym "old"],
            .list [.sym "symbol", .str "b", .sym "old"]].zip ["a", "b"])
          ([SExp.list [.sym "symbol", .str "b", .sym "new"],
            .list [.sym "symbol", .str "c", .sym "new"]].zip ["b", "c"]),
        overwriteSpecUpdated
          ([SExp.list [.sym "symbol", .str "a", .sym "old"],
            .list [.sym "symbol", .str "b", .sym "old"]].zip ["a", "b"])
          ([SExp.list [.sym "symbol", .str "b", .sym "new"],
            .list [.sym "symbol", .str "c", .sym "new"]].zip ["b", "c"])) :=
  c3_overwrite_policy _ _ (.sym "kicad_symbol_lib") (.sym "kicad_symbol_lib")
    [] _ [] _ ["a", "b"] ["b", "c"] rfl rfl rfl rfl (by decide) (by decide)

theorem pySorted_sorted (l : List String) : List.Sorted pyLe (pySorted l) :=
  List.sorted_insertionSort pyLe l

theorem pySorted_perm (l : List String) : (pySorted l).Perm l :=
  List.perm_insertionSort pyLe l

/-- C2: whenever the import reaches its conflict check (the system-path
guard passed, the URI resolved, the paths differ, both libraries load
and split) and the two documents share at least one entry name, then the
run aborts with the assertion error carrying the sorted list of every
colliding name — not just the first — and nothing is ever written to the
destination file. -/
theorem c2_conflict_rejects_before_write (env : Env) (sourcePath destAbs : String)
    (targetLibrary : List (String × String)) (destPath0 : String)
    (incAst exAst headerI headerE : SExp) (metaI symsI metaE symsE : List SExp)
    (namesI namesE : List String)
    (hguard : ensureNotSystemSymbol env sourcePath = .ok ())
    (hres : resolveLibraryUri env (pyGet targetLibrary "uri" "") = .ok destPath0)
    (hdest : destAbs = pyAbspath env.cwd
      (if env.isDir destPath0 then pyJoin destPath0 (pyBasename sourcePath)
        else destPath0))
    (hneq : pyAbspath env.cwd sourcePath ≠ destAbs)
    (hparseI : parse (env.readFile (pyAbspath env.cwd sourcePath)) = some incAst)
    (hexists : env.pathExists destAbs = true)
    (hparseE : parse (env.readFile destAbs) = some exAst)
    (hsi : splitSymbolLibrary incAst = .ok (headerI, metaI, symsI))
    (hni : entryNames symsI = .ok namesI)
    (hse : splitSymbolLibrary exAst = .ok (headerE, metaE, symsE))
    (hne : entryNames symsE = .ok namesE)
    (hshared : ∃ n, n ∈ namesE ∧ n ∈ namesI) :
    ∃ dups, dups ≠ [] ∧ List.Sorted pyLe dups ∧ dups.Nodup ∧
      (∀ n, n ∈ dups ↔ n ∈ namesE ∧ n ∈ namesI) ∧
      importSymbolLibrary env sourcePath targetLibrary =
        .error (.assertionError ("Symbols already present in target library: " ++
          String.intercalate ", " dups)) ∧
      importWrites env sourcePath targetLibrary = none := by
  subst hdest
  set dups := pySorted ((namesE.filter (fun n => namesI.contains n)).dedup) with hdups
  have hmem : ∀ n, n ∈ dups ↔ n ∈ namesE ∧ n ∈ namesI := by
    intro n
    rw [hdups, (pySorted_perm _).mem_iff, List.mem_dedup, List.mem_filter]
    constructor
    · rintro ⟨h1, h2⟩
      exact ⟨h1, List.elem_iff.mp h2⟩
    · rintro ⟨h1, h2⟩
      exact ⟨h1, List.elem_iff.mpr h2⟩
  have hnonempty : dups ≠ [] := by
    obtain ⟨n, hnE, hnI⟩ := hshared
    intro hnil
    rw [hnil] at hmem
    exact absurd ((hmem n).mpr ⟨hnE, hnI⟩) (by simp)
  have hnotEmpty : dups.isEmpty = false := List.isEmpty_eq_false.mpr hnonempty
  have himport : importSymbolLibrary env sourcePath targetLibrary =
      .error (.assertionError ("Symbols already present in target library: " ++
        String.intercalate ", " dups)) := by
    simp only [importSymbolLibrary, hguard, hres, bind, Except.bind, pure, Except.pure]
    rw [if_neg hneq]
    simp only [loadSymbolLibrary, hparseI, hexists, if_true, hparseE,
      hsi, hni, hse, hne, ← hdups, hnotEmpty, Bool.false_eq_true, if_false]
  refine ⟨dups, hnonempty, hdups ▸ pySorted_sorted _, ?_, hmem, himport, ?_⟩
  · rw [hdups]
    exact ((pySorted_perm _).nodup_iff).mpr (List.nodup_dedup _)
  · rw [importWrites, himport]

/-- Witness for C2: a concrete import whose source and destination share
the entry names `a` and `c`; the sorted collision list is `a, c`. -/
theorem c2_conflict_rejects_before_write_witness :
    ∃ dups, dups ≠ [] ∧ List.Sorted pyLe dups ∧ dups.Nodup ∧
      (∀ n, n ∈ dups ↔ n ∈ ["a", "b", "c"] ∧ n ∈ ["c", "a"]) ∧
      importSymbolLibrary envC2 "/s/in.kicad_sym" [("uri", "/t/lib.kicad_sym"), ("name", "L")] =
        .error (.assertionError ("Symbols already present in target library: " ++
          String.intercalate ", " dups)) ∧
      importWrites envC2 "/s/in.kicad_sym" [("uri", "/t/lib.kicad_sym"), ("name", "L")] = none :=
  c2_conflict_rejects_before_write envC2 "/s/in.kicad_sym" "/t/lib.kicad_sym"
    [("uri", "/t/lib.kicad_sym"), ("name", "L")] "/t/lib.kicad_sym"
    (.list [.sym "kicad_symbol_lib", .list [.sym "symbol", .str "c"],
      .list [.sym "symbol", .str "a"]])
    (.list [.sym "kicad_symbol_lib", .list [.sym "symbol", .str "a"],
      .list [.sym "symbol", .str "b"], .list [.sym "symbol", .str "c"]])
    (.sym "kicad_symbol_lib") (.sym "kicad_symbol_lib") [] _ [] _
    ["c", "a"] ["a", "b", "c"]
    rfl rfl rfl (by decide) rfl rfl rfl rfl rfl rfl rfl
    ⟨"a", by decide, by decide⟩

/-- C10: when the source path and the directory-expanded resolved
destination denote the same absolute path, the import fails and writes
nothing, and its outcome is the same for every possible file content —
the failure comes before any library content is read. -/
theorem c10_identical_paths_guard (env : Env) (sourcePath : String)
    (targetLibrary : List (String × String)) (destPath0 : String)
    (hres : resolveLibraryUri env (pyGet targetLibrary "uri" "") = .ok destPath0)
    (heq : pyAbspath env.cwd sourcePath =
      pyAbspath env.cwd (if env.isDir destPath0 then
        pyJoin destPath0 (pyBasename sourcePath) else destPath0)) :
    ∃ e, ∀ rf,
      importSymbolLibrary { env with readFile := rf } sourcePath targetLibrary =
        .error e ∧
      importWrites { env with readFile := rf } sourcePath targetLibrary = none := by
  cases hg : ensureNotSystemSymbol env sourcePath with
  | error e =>
    refine ⟨e, fun rf => ?_⟩
    have hg' : ensureNotSystemSymbol { env with readFile := rf } sourcePath = .error e := hg
    have himp : importSymbolLibrary { env with readFile := rf } sourcePath targetLibrary =
        .error e := by
      simp [importSymbolLibrary, hg', bind, Except.bind]
    exact ⟨himp, by rw [importWrites, himp]⟩
  | ok u =>
    cases u
    refine ⟨.assertionError "Source and destination symbol libraries are identical.",
      fun rf => ?_⟩
    have hg' : ensureNotSystemSymbol { env with readFile := rf } sourcePath = .ok () := hg
    have hres' : resolveLibraryUri { env with readFile := rf }
        (pyGet targetLibrary "uri" "") = .ok destPath0 := hres
    have himp : importSymbolLibrary { env with readFile := rf } sourcePath targetLibrary =
        .error (.assertionError
          "Source and destination symbol libraries are identical.") := by
      simp only [importSymbolLibrary, hg', hres', bind, Except.bind, pure, Except.pure]
      rw [if_pos heq]
    exact ⟨himp, by rw [importWrites, himp]⟩

/-- Witness for C10: a destination URI resolving to the source path
itself. -/
theorem c10_identical_paths_guard_witness :
    ∃ e, ∀ rf,
      importSymbolLibrary { envC10 with readFile := rf } "/x/l.kicad_sym"
          [("uri", "/x/l.kicad_sym")] = .error e ∧
      importWrites { envC10 with readFile := rf } "/x/l.kicad_sym"
          [("uri", "/x/l.kicad_sym")] = none :=
  c10_identical_paths_guard envC10 "/x/l.kicad_sym" [("uri", "/x/l.kicad_sym")]
    "/x/l.kicad_sym" rfl rfl

/-- One placeholder-substitution step leaves the text unchanged when the
token does not occur in it (proof device). -/
theorem step_skip (resolved tok root : String)
    (h : strContains resolved tok = false) :
    (if root ≠ "" ∧ strContains resolved tok = true then pyReplace resolved tok root
      else resolved) = resolved := by
  rw [if_neg]
  rintro ⟨-, hc⟩
  rw [h] at hc
  cases hc

/-- One placeholder-substitution step replaces a token that occurs in
the text when its root is configured (proof device). -/
theorem step_subst (resolved tok root : String) (hroot : root ≠ "")
    (h : strContains resolved tok = true) :
    (if root ≠ "" ∧ strContains resolved tok = true then pyReplace resolved tok root
      else resolved) = pyReplace resolved tok root :=
  if_pos ⟨hroot, h⟩

/-- The only error the `file://` branch can raise is `urlparse`'s
unmatched-bracket `ValueError`. -/
theorem fileUriStep_error_inv (resolved : String) (e : PyErr)
    (h : fileUriStep resolved = .error e) :
    e = .valueError "Invalid IPv6 URL" := by
  simp only [fileUriStep] at h
  split at h
  · split at h
    · injection h with h2
      exact h2.symm
    · cases h
  · cases h

/-- Error inversion for the resolver: a failure is the empty-URI
`ValueError` with its specific message, or `urlparse`'s
unmatched-bracket `ValueError`. -/
theorem resolveLibraryUri_error_inv (env : Env) (uri : String) (e : PyErr)
    (h : resolveLibraryUri env uri = .error e) :
    (uri = "" ∧ e = .valueError "Target library is missing a URI entry.") ∨
    e = .valueError "Invalid IPv6 URL" := by
  by_cases hne : uri = ""
  · subst hne
    have hv : resolveLibraryUri env "" =
        .error (.valueError "Target library is missing a URI entry.") := by
      simp [resolveLibraryUri]
    rw [hv] at h
    injection h with h2
    exact Or.inl ⟨rfl, h2.symm⟩
  · simp only [resolveLibraryUri, if_neg hne] at h
    split at h
    · rename_i e' heq
      injection h with h2
      have h3 := fileUriStep_error_inv _ _ heq
      rw [← h2, h3]
      exact Or.inr rfl
    · cases h

/-- C7 (amended): the resolver's empty-URI `ValueError` — the one
carrying `Target library is missing a URI entry.` — occurs exactly when
the URI is empty; but the original "fails if and only if the URI is
empty" is false: a non-empty `file://` URI whose authority has an
unmatched square bracket (such as `file://[x`) makes `urlparse` raise
`ValueError("Invalid IPv6 URL")`, and these two are the resolver's only
failures. A bracket-free non-empty URI resolves: substituting a
recognized placeholder whose configured root is non-empty,
percent-decoding the path of a `file://` URI (so `file:///a/b%20c`
yields the absolute path `/a/b c`), and resolving a still-relative
result against the working directory. -/
theorem c7_uri_resolver :
    (∀ env uri, resolveLibraryUri env uri =
        .error (.valueError "Target library is missing a URI entry.") ↔ uri = "") ∧
    (∀ env uri e, resolveLibraryUri env uri = .error e →
      (uri = "" ∧ e = .valueError "Target library is missing a URI entry.") ∨
      e = .valueError "Invalid IPv6 URL") ∧
    (∀ env : Env, resolveLibraryUri env "" =
      .error (.valueError "Target library is missing a URI entry.")) ∧
    (∀ env : Env, resolveLibraryUri env "file://[x" =
      .error (.valueError "Invalid IPv6 URL")) ∧
    (∀ env : Env, resolveLibraryUri env "file:///a/b%20c" = .ok "/a/b c") ∧
    (∀ env : Env, env.symbolsPath = "/roots/sym" →
      resolveLibraryUri env "${KICAD9_SYMBOL_DIR}/x.kicad_sym" =
        .ok "/roots/sym/x.kicad_sym") ∧
    (∀ env : Env, env.cwd = "/c" →
      resolveLibraryUri env "rel.txt" = .ok "/c/rel.txt") := by
  refine ⟨?_, ?_, ?_, ?_, ?_, ?_, ?_⟩
  · intro env uri
    constructor
    · intro he
      rcases resolveLibraryUri_error_inv env uri _ he with ⟨h1, -⟩ | h2
      · exact h1
      · injection h2 with h3
        exact absurd h3 (by decide)
    · rintro rfl
      simp [resolveLibraryUri]
  · exact resolveLibraryUri_error_inv
  · intro env
    simp [resolveLibraryUri]
  · intro env
    simp only [resolveLibraryUri, List.foldl]
    rw [if_neg (by decide : ¬("file://[x" = ""))]
    rw [step_skip "file://[x" "${KICAD9_SYMBOL_DIR}" env.symbolsPath (by decide),
      step_skip "file://[x" "${KICAD9_FOOTPRINT_DIR}" env.footprintsPath (by decide),
      step_skip "file://[x" "${KICAD9_3DMODEL_DIR}" env.modelsPath (by decide),
      step_skip "file://[x" "${KICAD9_3D_MODEL_DIR}" env.modelsPath (by decide)]
    rfl
  · intro env
    simp only [resolveLibraryUri, List.foldl]
    rw [if_neg (by decide : ¬("file:///a/b%20c" = ""))]
    rw [step_skip "file:///a/b%20c" "${KICAD9_SYMBOL_DIR}" env.symbolsPath (by decide),
      step_skip "file:///a/b%20c" "${KICAD9_FOOTPRINT_DIR}" env.footprintsPath (by decide),
      step_skip "file:///a/b%20c" "${KICAD9_3DMODEL_DIR}" env.modelsPath (by decide),
      step_skip "file:///a/b%20c" "${KICAD9_3D_MODEL_DIR}" env.modelsPath (by decide)]
    rfl
  · intro env hsym
    simp only [resolveLibraryUri, List.foldl, hsym]
    rw [if_neg (by decide : ¬("${KICAD9_SYMBOL_DIR}/x.kicad_sym" = ""))]
    rw [step_subst "${KICAD9_SYMBOL_DIR}/x.kicad_sym" "${KICAD9_SYMBOL_DIR}"
      "/roots/sym" (by decide) (by decide)]
    rw [show pyReplace "${KICAD9_SYMBOL_DIR}/x.kicad_sym" "${KICAD9_SYMBOL_DIR}"
      "/roots/sym" = "/roots/sym/x.kicad_sym" from rfl]
    rw [step_skip "/roots/sym/x.kicad_sym" "${KICAD9_FOOTPRINT_DIR}"
        env.footprintsPath (by decide),
      step_skip "/roots/sym/x.kicad_sym" "${KICAD9_3DMODEL_DIR}"
        env.modelsPath (by decide),
      step_skip "/roots/sym/x.kicad_sym" "${KICAD9_3D_MODEL_DIR}"
        env.modelsPath (by decide)]
    rfl
  · intro env hcwd
    simp only [resolveLibraryUri, List.foldl, hcwd]
    rw [if_neg (by decide : ¬("rel.txt" = ""))]
    rw [step_skip "rel.txt" "${KICAD9_SYMBOL_DIR}" env.symbolsPath (by decide),
      step_skip "rel.txt" "${KICAD9_FOOTPRINT_DIR}" env.footprintsPath (by decide),
      step_skip "rel.txt" "${KICAD9_3DMODEL_DIR}" env.modelsPath (by decide),
      step_skip "rel.txt" "${KICAD9_3D_MODEL_DIR}" env.modelsPath (by decide)]
    rfl

/-- Counterexample to C7 as stated: `file://[x` is a non-empty URI on
which the resolver nevertheless fails, with `urlparse`'s unmatched
square bracket `ValueError`, refuting "fails if and only if the URI is
empty". -/
theorem c7_uri_resolver_cex :
    ("file://[x" : String) ≠ "" ∧
    resolveLibraryUri envC7 "file://[x" = .error (.valueError "Invalid IPv6 URL") :=
  ⟨by decide, by rfl⟩

/-- Witness for C7 at a concrete environment. -/
theorem c7_uri_resolver_witness :
    resolveLibraryUri envC7 "file:///a/b%20c" = .ok "/a/b c" ∧
    resolveLibraryUri envC7 "${KICAD9_SYMBOL_DIR}/x.kicad_sym" =
      .ok "/roots/sym/x.kicad_sym" ∧
    resolveLibraryUri envC7 "rel.txt" = .ok "/c/rel.txt" ∧
    (resolveLibraryUri envC7 "" =
        .error (.valueError "Target library is missing a URI entry.") ↔
      ("" : String) = "") ∧
    resolveLibraryUri envC7 "file://[x" = .error (.valueError "Invalid IPv6 URL") ∧
    ((envC7.symbolsPath = "/roots/sym") ∧ (envC7.cwd = "/c")) :=
  ⟨c7_uri_resolver.2.2.2.2.1 envC7, c7_uri_resolver.2.2.2.2.2.1 envC7 rfl,
    c7_uri_resolver.2.2.2.2.2.2 envC7 rfl, c7_uri_resolver.1 envC7 "",
    c7_uri_resolver.2.2.2.1 envC7, rfl, rfl⟩

/-! ### C1: parse/serialize round-trip -/

/-- Unfolding of the tokenizer at a cons cell (definitional). -/
theorem tokenize_cons (fuel : Nat) (c : Char) (rest : List Char) :
    tokenize (fuel + 1) (c :: rest) =
      if isWs c then tokenize fuel rest
      else if c = '(' then (tokenize fuel rest).map (Tok.lpar :: ·)
      else if c = ')' then (tokenize fuel rest).map (Tok.rpar :: ·)
      else if c = '"' then
        match lexString rest with
        | none => none
        | some (s, r) => (tokenize fuel r).map (Tok.str ⟨s⟩ :: ·)
      else
        (tokenize fuel (rest.dropWhile (fun d => !isDelim d))).map
          (Tok.sym ⟨c :: rest.takeWhile (fun d => !isDelim d)⟩ :: ·) := rfl

/-- Unfolding of the string lexer at a cons cell (definitional). -/
theorem lexString_cons (c : Char) (rest : List Char) :
    lexString (c :: rest) =
      if c = '\\' then
        match rest with
        | [] => none
        | d :: rest2 =>
          match lexString rest2 with
          | none => none
          | some (s, r) => some (d :: s, r)
      else if c = '"' then some ([], rest)
      else
        match lexString rest with
        | none => none
        | some (s, r) => some (c :: s, r) := by
  rw [lexString.eq_def]

/-- Every node needs at least one unit of parser fuel. -/
theorem sz_pos : ∀ n : SExp, 1 ≤ sz n := by
  intro n
  cases n <;> simp [sz]

/-- Every child list needs at least one unit of parser fuel. -/
theorem szL_pos : ∀ xs : List SExp, 1 ≤ szL xs := by
  intro xs
  cases xs with
  | nil => simp [szL]
  | cons x xs =>
    have := sz_pos x
    simp only [szL]
    omega

/-- A successful string lex strictly consumes input. -/
theorem lexString_len : ∀ (cs s r : List Char),
    lexString cs = some (s, r) → r.length < cs.length
  | [], _, _, h => by simp [lexString] at h
  | c :: rest, s, r, h => by
    rw [lexString_cons] at h
    by_cases hc : c = '\\'
    · rw [if_pos hc] at h
      rcases rest with _ | ⟨d, rest2⟩
      · cases h
      · change (match lexString rest2 with
          | none => none
          | some (s, r) => some (d :: s, r)) = some (s, r) at h
        cases hlex : lexString rest2 with
        | none => rw [hlex] at h; cases h
        | some pr =>
          obtain ⟨s2, r2⟩ := pr
          rw [hlex] at h
          change some (d :: s2, r2) = some (s, r) at h
          injection h with h2
          injection h2 with h3 h4
          subst h4
          have := lexString_len rest2 s2 r2 hlex
          simp only [List.length_cons]
          omega
    · rw [if_neg hc] at h
      by_cases hq : c = '"'
      · rw [if_pos hq] at h
        injection h with h2
        injection h2 with h3 h4
        subst h4
        simp
      · rw [if_neg hq] at h
        cases hlex : lexString rest with
        | none => rw [hlex] at h; cases h
        | some pr =>
          obtain ⟨s2, r2⟩ := pr
          rw [hlex] at h
          change some (c :: s2, r2) = some (s, r) at h
          injection h with h2
          injection h2 with h3 h4
          subst h4
          have := lexString_len rest s2 r2 hlex
          simp only [List.length_cons]
          omega

/-- Dropping a prefix never lengthens a list. -/
theorem dropWhile_len_le (p : Char → Bool) :
    ∀ l : List Char, (l.dropWhile p).length ≤ l.length := by
  intro l
  induction l with
  | nil => simp
  | cons c cs ih =>
    by_cases hp : p c = true
    · rw [List.dropWhile_cons, if_pos hp]
      simp only [List.length_cons]
      omega
    · rw [List.dropWhile_cons, if_neg hp]

/-- The tokenizer's result does not depend on the fuel once the fuel
exceeds the input length. -/
theorem tokenize_fuel_eq : ∀ (n : Nat) (cs : List Char) (f₁ f₂ : Nat),
    cs.length ≤ n → cs.length < f₁ → cs.length < f₂ →
    tokenize f₁ cs = tokenize f₂ cs := by
  intro n
  induction n with
  | zero =>
    intro cs f₁ f₂ hn h1 h2
    have hcs : cs = [] := List.length_eq_zero.mp (Nat.le_zero.mp hn)
    subst hcs
    obtain ⟨g1, rfl⟩ : ∃ g, f₁ = g + 1 := ⟨f₁ - 1, by omega⟩
    obtain ⟨g2, rfl⟩ : ∃ g, f₂ = g + 1 := ⟨f₂ - 1, by omega⟩
    rfl
  | succ n ih =>
    intro cs f₁ f₂ hn h1 h2
    rcases cs with _ | ⟨c, rest⟩
    · obtain ⟨g1, rfl⟩ : ∃ g, f₁ = g + 1 := ⟨f₁ - 1, by omega⟩
      obtain ⟨g2, rfl⟩ : ∃ g, f₂ = g + 1 := ⟨f₂ - 1, by omega⟩
      rfl
    · obtain ⟨g1, rfl⟩ : ∃ g, f₁ = g + 1 := ⟨f₁ - 1, by omega⟩
      obtain ⟨g2, rfl⟩ : ∃ g, f₂ = g + 1 := ⟨f₂ - 1, by omega⟩
      simp only [List.length_cons] at hn h1 h2
      rw [tokenize_cons, tokenize_cons]
      by_cases hws : isWs c = true
      · rw [if_pos hws, if_pos hws]
        exact ih rest g1 g2 (by omega) (by omega) (by omega)
      · rw [if_neg hws, if_neg hws]
        by_cases hlp : c = '('
        · rw [if_pos hlp, if_pos hlp,
            ih rest g1 g2 (by omega) (by omega) (by omega)]
        · rw [if_neg hlp, if_neg hlp]
          by_cases hrp : c = ')'
          · rw [if_pos hrp, if_pos hrp,
              ih rest g1 g2 (by omega) (by omega) (by omega)]
          · rw [if_neg hrp, if_neg hrp]
            by_cases hq : c = '"'
            · rw [if_pos hq, if_pos hq]
              cases hlex : lexString rest with
              | none => rfl
              | some pr =>
                obtain ⟨s, r⟩ := pr
                have hr := lexString_len rest s r hlex
                show (tokenize g1 r).map (Tok.str ⟨s⟩ :: ·) =
                  (tokenize g2 r).map (Tok.str ⟨s⟩ :: ·)
                rw [ih r g1 g2 (by omega) (by omega) (by omega)]
            · rw [if_neg hq, if_neg hq]
              have hd := dropWhile_len_le (fun d => !isDelim d) rest
              rw [ih (rest.dropWhile (fun d => !isDelim d)) g1 g2
                (by omega) (by omega) (by omega)]

theorem tkz_nil : tkz [] = some [] := rfl

/-- The tokenizer skips whitespace. -/
theorem tkz_ws {c : Char} (hws : isWs c = true) (cs : List Char) :
    tkz (c :: cs) = tkz cs := by
  show tokenize (cs.length + 1 + 1) (c :: cs) = tkz cs
  rw [tokenize_cons, if_pos hws]
  rfl

/-- The tokenizer emits an opening-parenthesis token. -/
theorem tkz_lpar (cs : List Char) :
    tkz ('(' :: cs) = (tkz cs).map (Tok.lpar :: ·) := by
  show tokenize (cs.length + 1 + 1) ('(' :: cs) = _
  rw [tokenize_cons, if_neg (by decide), if_pos rfl]
  rfl

/-- The tokenizer emits a closing-parenthesis token. -/
theorem tkz_rpar (cs : List Char) :
    tkz (')' :: cs) = (tkz cs).map (Tok.rpar :: ·) := by
  show tokenize (cs.length + 1 + 1) (')' :: cs) = _
  rw [tokenize_cons, if_neg (by decide), if_neg (by decide), if_pos rfl]
  rfl

/-- The tokenizer turns a successfully lexed quoted literal into one
string token. -/
theorem tkz_quote {cs s r : List Char} (hlex : lexString cs = some (s, r)) :
    tkz ('"' :: cs) = (tkz r).map (Tok.str ⟨s⟩ :: ·) := by
  have hr := lexString_len cs s r hlex
  show tokenize (cs.length + 1 + 1) ('"' :: cs) = _
  rw [tokenize_cons, if_neg (by decide), if_neg (by decide), if_neg (by decide),
    if_pos rfl, hlex]
  show (tokenize (cs.length + 1) r).map (Tok.str ⟨s⟩ :: ·) = _
  rw [tokenize_fuel_eq r.length r (cs.length + 1) (r.length + 1)
    le_rfl (by omega) (by omega)]
  rfl

/-- An unterminated quoted literal makes tokenization fail. -/
theorem tkz_quote_none {cs : List Char} (hlex : lexString cs = none) :
    tkz ('"' :: cs) = none := by
  show tokenize (cs.length + 1 + 1) ('"' :: cs) = none
  rw [tokenize_cons, if_neg (by decide), if_neg (by decide), if_neg (by decide),
    if_pos rfl, hlex]

/-- The tokenizer turns a maximal non-delimiter run into one bare-symbol
token. -/
theorem tkz_sym {c : Char} (hc : isDelim c = false) (cs : List Char) :
    tkz (c :: cs) = (tkz (cs.dropWhile (fun d => !isDelim d))).map
      (Tok.sym ⟨c :: cs.takeWhile (fun d => !isDelim d)⟩ :: ·) := by
  have hparts : isWs c = false ∧ ¬c = '(' ∧ ¬c = ')' ∧ ¬c = '"' := by
    simp only [isDelim, Bool.or_eq_false_iff, decide_eq_false_iff_not] at hc
    exact ⟨hc.1.1.1, hc.1.1.2, hc.1.2, hc.2⟩
  obtain ⟨h1, h2, h3, h4⟩ := hparts
  show tokenize (cs.length + 1 + 1) (c :: cs) = _
  rw [tokenize_cons, if_neg (by simp [h1]), if_neg h2, if_neg h3, if_neg h4]
  rw [tokenize_fuel_eq cs.length (cs.dropWhile (fun d => !isDelim d))
    (cs.length + 1) ((cs.dropWhile (fun d => !isDelim d)).length + 1)
    (dropWhile_len_le _ cs)
    (by have := dropWhile_len_le (fun d => !isDelim d) cs; omega)
    (by omega)]
  rfl

/-- `takeWhile` passes over a prefix that wholly satisfies the predicate. -/
theorem takeWhile_append_all (p : Char → Bool) :
    ∀ (as bs : List Char), (∀ a ∈ as, p a = true) →
      (as ++ bs).takeWhile p = as ++ bs.takeWhile p := by
  intro as bs h
  induction as with
  | nil => simp
  | cons a as ih =>
    rw [List.cons_append, List.takeWhile_cons, if_pos (h a (by simp))]
    rw [ih (fun x hx => h x (by simp [hx]))]
    rfl

/-- `dropWhile` consumes a prefix that wholly satisfies the predicate. -/
theorem dropWhile_append_all (p : Char → Bool) :
    ∀ (as bs : List Char), (∀ a ∈ as, p a = true) →
      (as ++ bs).dropWhile p = bs.dropWhile p := by
  intro as bs h
  induction as with
  | nil => simp
  | cons a as ih =>
    rw [List.cons_append, List.dropWhile_cons, if_pos (h a (by simp))]
    exact ih (fun x hx => h x (by simp [hx]))

/-- A well-formed bare symbol followed by a delimiter (or the end of
input) tokenizes to exactly one symbol token. -/
theorem tkz_symToken {s : String}
    (hwf : (!s.data.isEmpty && s.data.all (fun c => !isDelim c)) = true)
    {suffix : List Char} (hd : delimHead suffix) :
    tkz (s.data ++ suffix) = (tkz suffix).map (Tok.sym s :: ·) := by
  obtain ⟨hne, hall⟩ : (!s.data.isEmpty) = true ∧ s.data.all (fun c => !isDelim c) = true := by
    simpa [Bool.and_eq_true] using hwf
  rcases hsd : s.data with _ | ⟨c, cs0⟩
  · rw [hsd] at hne; simp at hne
  · have hmem : ∀ d ∈ s.data, isDelim d = false := by
      intro d hdm
      have := List.all_eq_true.mp hall d hdm
      simp only [Bool.not_eq_true'] at this
      exact this
    have hc : isDelim c = false := hmem c (by rw [hsd]; simp)
    have hcs0 : ∀ d ∈ cs0, (fun d => !isDelim d) d = true := by
      intro d hdm
      have := hmem d (by rw [hsd]; simp [hdm])
      simp [this]
    rw [List.cons_append, tkz_sym hc]
    have htake : (cs0 ++ suffix).takeWhile (fun d => !isDelim d) = cs0 ∧
        (cs0 ++ suffix).dropWhile (fun d => !isDelim d) = suffix := by
      rcases suffix with _ | ⟨b, bs⟩
      · constructor
        · rw [List.append_nil]
          exact List.takeWhile_eq_self_iff.mpr hcs0
        · rw [List.append_nil]
          exact List.dropWhile_eq_nil_iff.mpr (fun x hx => by simp [hcs0 x hx])
      · have hb : (fun d => !isDelim d) b = false := by
          simp only [delimHead] at hd
          simp [hd]
        constructor
        · rw [takeWhile_append_all _ _ _ hcs0, List.takeWhile_cons, if_neg (by simp [hb])]
          rw [List.append_nil]
        · rw [dropWhile_append_all _ _ _ hcs0, List.dropWhile_cons, if_neg (by simp [hb])]
    rw [htake.1, htake.2]
    have : (⟨c :: cs0⟩ : String) = s := by
      rw [← hsd]
    rw [this]

/-- Leading whitespace runs are skipped by the tokenizer. -/
theorem tkz_replicate_ws : ∀ (k : Nat) (cs : List Char),
    tkz (List.replicate k ' ' ++ cs) = tkz cs := by
  intro k
  induction k with
  | zero => intro cs; rfl
  | succ n ih =>
    intro cs
    rw [List.replicate_succ, List.cons_append, tkz_ws (by decide)]
    exact ih cs

/-- Indentation is invisible to the tokenizer. -/
theorem tkz_indent (ind : Nat) (cs : List Char) :
    tkz (indentChars ind ++ cs) = tkz cs := tkz_replicate_ws _ _

/-- The string lexer undoes the serializer's escaping. -/
theorem lexString_escape : ∀ (s rest : List Char),
    lexString (escapeChars s ++ '"' :: rest) = some (s, rest) := by
  intro s
  induction s with
  | nil =>
    intro rest
    show lexString ('"' :: rest) = some ([], rest)
    rw [lexString_cons, if_neg (by decide), if_pos rfl]
  | cons c cs ih =>
    intro rest
    by_cases hc : c = '"' ∨ c = '\\'
    · have hesc : escapeChars (c :: cs) = '\\' :: c :: escapeChars cs := by
        rw [escapeChars]
        rw [if_pos (by rcases hc with h | h <;> simp [h])]
      rw [hesc, List.cons_append, List.cons_append, lexString_cons, if_pos rfl]
      show (match lexString (escapeChars cs ++ '"' :: rest) with
        | none => none
        | some (s, r) => some (c :: s, r)) = some (c :: cs, rest)
      rw [ih rest]
    · have hesc : escapeChars (c :: cs) = c :: escapeChars cs := by
        rw [escapeChars]
        rw [if_neg (by rcases (not_or.mp hc) with ⟨h1, h2⟩; simp [h1, h2])]
      have hcq : ¬c = '"' := (not_or.mp hc).1
      have hcb : ¬c = '\\' := (not_or.mp hc).2
      rw [hesc, List.cons_append, lexString_cons, if_neg hcb, if_neg hcq]
      show (match lexString (escapeChars cs ++ '"' :: rest) with
        | none => none
        | some (s, r) => some (c :: s, r)) = some (c :: cs, rest)
      rw [ih rest]

/-- The token sequence of a node is at least as long as its fuel bound. -/
theorem sz_le_len : ∀ k : Nat,
    (∀ n : SExp, sz n ≤ k → sz n ≤ (toToks n).length) ∧
    (∀ xs : List SExp, szL xs ≤ k → szL xs ≤ (toToksL xs).length + 1) := by
  intro k
  induction k with
  | zero =>
    constructor
    · intro n h
      exact absurd h (by have := sz_pos n; omega)
    · intro xs h
      exact absurd h (by have := szL_pos xs; omega)
  | succ k ih =>
    constructor
    · intro n hn
      rcases n with s | s | xs
      · simp [sz, toToks]
      · simp [sz, toToks]
      · simp only [sz, toToks, List.length_cons, List.length_append,
          List.length_singleton] at hn ⊢
        have := ih.2 xs (by omega)
        omega
    · intro xs hxs
      rcases xs with _ | ⟨x, xs'⟩
      · simp [szL, toToksL]
      · simp only [szL, toToksL, List.length_append] at hxs ⊢
        have h1 := ih.1 x (by have := szL_pos xs'; omega)
        have h2 := ih.2 xs' (by have := sz_pos x; omega)
        omega

/-- The parser consumes exactly the token sequence of a node, given
enough fuel. -/
theorem parse_toks : ∀ fuel : Nat,
    (∀ (n : SExp) (rest : List Tok), sz n ≤ fuel →
      parseExpr fuel (toToks n ++ rest) = some (n, rest)) ∧
    (∀ (xs : List SExp) (rest : List Tok), szL xs ≤ fuel →
      parseList fuel (toToksL xs ++ Tok.rpar :: rest) = some (xs, rest)) := by
  intro fuel
  induction fuel with
  | zero =>
    constructor
    · intro n rest h
      exact absurd h (by have := sz_pos n; omega)
    · intro xs rest h
      exact absurd h (by have := szL_pos xs; omega)
  | succ f ih =>
    constructor
    · intro n rest hsz
      rcases n with s | s | xs
      · simp [toToks, parseExpr]
      · simp [toToks, parseExpr]
      · simp only [toToks, List.cons_append, List.append_assoc, List.singleton_append,
          List.nil_append]
        simp only [parseExpr]
        rw [ih.2 xs rest (by simp only [sz] at hsz; omega)]
    · intro xs rest hsz
      rcases xs with _ | ⟨x, xs'⟩
      · simp [toToksL, parseList]
      · simp only [toToksL, List.append_assoc]
        have hx : sz x ≤ f := by
          simp only [szL] at hsz
          have := szL_pos xs'
          omega
        have hxs : szL xs' ≤ f := by
          simp only [szL] at hsz
          have := sz_pos x
          omega
        have h1 := ih.1 x (toToksL xs' ++ Tok.rpar :: rest) hx
        have h2 := ih.2 xs' rest hxs
        rcases x with s | s | ys
        · simp only [toToks, List.cons_append, List.singleton_append] at h1 ⊢
          simp only [parseList, h1, h2]
        · simp only [toToks, List.cons_append, List.singleton_append] at h1 ⊢
          simp only [parseList, h1, h2]
        · simp only [toToks, List.cons_append] at h1 ⊢
          simp only [parseList, h1, h2]

/-- Pointwise-equal functions map options identically. -/
theorem map_ext_toks {o : Option (List Tok)} {f g : List Tok → List Tok}
    (h : ∀ l, f l = g l) : o.map f = o.map g := by
  cases o with
  | none => rfl
  | some l => simp [h]

/-- Tokenizing the pretty-printed form of a well-formed node, followed by
any delimiter-headed text, yields the node's token sequence followed by
the tokens of that text. -/
theorem tok_fmt_main : ∀ k : Nat,
    (∀ n : SExp, sz n ≤ k → wf n = true → ∀ (ind : Nat) (suffix : List Char),
      delimHead suffix →
      tkz (fmt ind n ++ suffix) = (tkz suffix).map (toToks n ++ ·)) ∧
    (∀ xs : List SExp, szL xs ≤ k → wfL xs = true →
      ∀ (ind : Nat) (suffix : List Char), delimHead suffix →
      tkz (joinNL (fmtL ind xs) ++ suffix) = (tkz suffix).map (toToksL xs ++ ·)) := by
  intro k
  induction k with
  | zero =>
    constructor
    · intro n hn
      exact absurd hn (by have := sz_pos n; omega)
    · intro xs hxs
      exact absurd hxs (by have := szL_pos xs; omega)
  | succ k ih =>
    constructor
    · intro n hsz hwf ind suffix hsuf
      rcases n with s | s | xs
      · -- bare symbol
        simp only [fmt, formatAtomChars, List.append_assoc]
        rw [tkz_indent, tkz_symToken (by simpa only [wf] using hwf) hsuf]
        refine map_ext_toks (fun l => ?_)
        simp [toToks]
      · -- quoted literal
        simp only [fmt, formatAtomChars, List.append_assoc, List.cons_append,
          List.singleton_append, List.nil_append]
        rw [tkz_indent, tkz_quote (lexString_escape s.data suffix)]
        refine map_ext_toks (fun l => ?_)
        simp [toToks]
      · -- list
        rcases xs with _ | ⟨hd, tl⟩
        · -- empty list
          simp only [fmt, List.append_assoc, List.cons_append, List.singleton_append,
            List.nil_append]
          rw [tkz_indent, tkz_lpar, tkz_rpar]
          simp only [Option.map_map]
          refine map_ext_toks (fun l => ?_)
          simp [Function.comp, toToks, toToksL]
        · have hwf2 : wf hd = true ∧ wfL tl = true := by
            simpa [wf, wfL, Bool.and_eq_true] using hwf
          have hszl : szL (hd :: tl) ≤ k := by
            simp only [sz] at hsz
            omega
          rcases hd with s | s | hs
          · -- head is a bare symbol
            rcases tl with _ | ⟨t, ts⟩
            · -- no body
              simp only [fmt, fmtL, closeBody, formatAtomChars, List.append_assoc,
                List.cons_append, List.singleton_append, List.nil_append]
              rw [tkz_indent, tkz_lpar,
                tkz_symToken (by simpa only [wf] using hwf2.1) (by simp [delimHead, isDelim, isWs]),
                tkz_rpar]
              simp only [Option.map_map]
              refine map_ext_toks (fun l => ?_)
              simp [Function.comp, toToks, toToksL]
            · -- body on its own lines
              have hQ := ih.2 (t :: ts) (by
                  simp only [szL] at hszl ⊢
                  have := sz_pos (.sym s)
                  simp only [sz] at this ⊢
                  omega)
                hwf2.2 (ind + 1)
                ('\n' :: (indentChars ind ++ ')' :: suffix)) (by simp [delimHead, isDelim, isWs])
              simp only [fmtL] at hQ
              have hs2 : tkz ('\n' :: (indentChars ind ++ ')' :: suffix)) =
                  (tkz suffix).map (Tok.rpar :: ·) := by
                rw [tkz_ws (by decide), tkz_indent, tkz_rpar]
              rw [hs2] at hQ
              simp only [fmt, fmtL, closeBody, formatAtomChars, List.append_assoc,
                List.cons_append, List.singleton_append, List.nil_append]
              rw [tkz_indent, tkz_lpar,
                tkz_symToken (by simpa only [wf] using hwf2.1) (by simp [delimHead, isDelim, isWs])]
              rw [tkz_ws (by decide)]
              rw [hQ]
              simp only [Option.map_map]
              refine map_ext_toks (fun l => ?_)
              simp [Function.comp, toToks, toToksL, List.append_assoc]
          · -- head is a quoted literal
            rcases tl with _ | ⟨t, ts⟩
            · simp only [fmt, fmtL, closeBody, formatAtomChars, List.append_assoc,
                List.cons_append, List.singleton_append, List.nil_append]
              rw [tkz_indent, tkz_lpar,
                tkz_quote (lexString_escape s.data (')' :: suffix)), tkz_rpar]
              simp only [Option.map_map]
              refine map_ext_toks (fun l => ?_)
              simp [Function.comp, toToks, toToksL]
            · have hQ := ih.2 (t :: ts) (by
                  simp only [szL] at hszl ⊢
                  have := sz_pos (.str s)
                  simp only [sz] at this ⊢
                  omega)
                hwf2.2 (ind + 1)
                ('\n' :: (indentChars ind ++ ')' :: suffix)) (by simp [delimHead, isDelim, isWs])
              simp only [fmtL] at hQ
              have hs2 : tkz ('\n' :: (indentChars ind ++ ')' :: suffix)) =
                  (tkz suffix).map (Tok.rpar :: ·) := by
                rw [tkz_ws (by decide), tkz_indent, tkz_rpar]
              rw [hs2] at hQ
              simp only [fmt, fmtL, closeBody, formatAtomChars, List.append_assoc,
                List.cons_append, List.singleton_append, List.nil_append]
              rw [tkz_indent, tkz_lpar,
                tkz_quote (lexString_escape s.data
                  ('\n' :: (joinNL (fmt (ind + 1) t :: fmtL (ind + 1) ts) ++
                    '\n' :: (indentChars ind ++ ')' :: suffix))))]
              rw [tkz_ws (by decide)]
              rw [hQ]
              simp only [Option.map_map]
              refine map_ext_toks (fun l => ?_)
              simp [Function.comp, toToks, toToksL, List.append_assoc]
          · -- head is itself a list
            have hQ := ih.2 (.list hs :: tl) hszl hwf (ind + 1)
              ('\n' :: (indentChars ind ++ ')' :: suffix)) (by simp [delimHead, isDelim, isWs])
            simp only [fmtL] at hQ
            have hs2 : tkz ('\n' :: (indentChars ind ++ ')' :: suffix)) =
                (tkz suffix).map (Tok.rpar :: ·) := by
              rw [tkz_ws (by decide), tkz_indent, tkz_rpar]
            rw [hs2] at hQ
            simp only [fmt, closeBody, List.append_assoc, List.cons_append,
              List.singleton_append, List.nil_append]
            rw [tkz_indent, tkz_lpar, tkz_ws (by decide)]
            rw [hQ]
            simp only [Option.map_map]
            refine map_ext_toks (fun l => ?_)
            simp [Function.comp, toToks, toToksL, List.append_assoc]
    · intro xs hsz hwf ind suffix hsuf
      rcases xs with _ | ⟨x, xs'⟩
      · simp only [fmtL, joinNL, List.nil_append]
        cases htk : tkz suffix with
        | none => rfl
        | some l => simp [toToksL]
      · have hwf2 : wf x = true ∧ wfL xs' = true := by
          simpa [wfL, Bool.and_eq_true] using hwf
        rcases xs' with _ | ⟨y, ys⟩
        · -- single item
          simp only [fmtL, joinNL]
          rw [ih.1 x (by simp only [szL] at hsz; omega) hwf2.1 ind suffix hsuf]
          refine map_ext_toks (fun l => ?_)
          simp [toToksL]
        · -- two or more items
          have hQ := ih.2 (y :: ys) (by
              simp only [szL] at hsz ⊢
              have := sz_pos x
              omega)
            hwf2.2 ind suffix hsuf
          simp only [fmtL] at hQ
          simp only [fmtL, joinNL, List.append_assoc, List.cons_append]
          rw [ih.1 x (by
              simp only [szL] at hsz
              have h1 := sz_pos y
              have h2 := szL_pos ys
              omega)
            hwf2.1 ind _ (by simp [delimHead, isDelim, isWs])]
          rw [tkz_ws (by decide)]
          rw [hQ]
          simp only [Option.map_map]
          refine map_ext_toks (fun l => ?_)
          simp [Function.comp, toToksL, List.append_assoc]

/-- Inversion for a consed `Option.map` (proof device). -/
theorem map_cons_some {o : Option (List Tok)} {t0 : Tok} {ts : List Tok}
    (h : o.map (t0 :: ·) = some ts) : ∃ ts', o = some ts' ∧ ts = t0 :: ts' := by
  cases o with
  | none => cases h
  | some l =>
    refine ⟨l, rfl, ?_⟩
    change some (t0 :: l) = some ts at h
    injection h with h2
    exact h2.symm

/-- Every token the tokenizer emits is well formed. -/
theorem tkz_wf : ∀ (nb : Nat) (cs : List Char), cs.length ≤ nb →
    ∀ ts, tkz cs = some ts → ∀ t ∈ ts, tokWf t = true := by
  intro nb
  induction nb with
  | zero =>
    intro cs hlen ts h t ht
    have hcs : cs = [] := List.length_eq_zero.mp (Nat.le_zero.mp hlen)
    subst hcs
    rw [tkz_nil] at h
    injection h with h2
    subst h2
    simp at ht
  | succ nb ih =>
    intro cs hlen ts h t ht
    rcases cs with _ | ⟨c, rest⟩
    · rw [tkz_nil] at h
      injection h with h2
      subst h2
      simp at ht
    · simp only [List.length_cons] at hlen
      by_cases hws : isWs c = true
      · rw [tkz_ws hws] at h
        exact ih rest (by omega) ts h t ht
      · by_cases hlp : c = '('
        · subst hlp
          rw [tkz_lpar] at h
          obtain ⟨ts', hts', rfl⟩ := map_cons_some h
          rcases List.mem_cons.mp ht with rfl | ht'
          · rfl
          · exact ih rest (by omega) ts' hts' t ht'
        · by_cases hrp : c = ')'
          · subst hrp
            rw [tkz_rpar] at h
            obtain ⟨ts', hts', rfl⟩ := map_cons_some h
            rcases List.mem_cons.mp ht with rfl | ht'
            · rfl
            · exact ih rest (by omega) ts' hts' t ht'
          · by_cases hq : c = '"'
            · subst hq
              cases hlex : lexString rest with
              | none => rw [tkz_quote_none hlex] at h; cases h
              | some pr =>
                obtain ⟨s, r⟩ := pr
                have hr := lexString_len rest s r hlex
                rw [tkz_quote hlex] at h
                obtain ⟨ts', hts', rfl⟩ := map_cons_some h
                rcases List.mem_cons.mp ht with rfl | ht'
                · rfl
                · exact ih r (by omega) ts' hts' t ht'
            · have hc : isDelim c = false := by
                simp [isDelim, hws, hlp, hrp, hq]
              rw [tkz_sym hc] at h
              obtain ⟨ts', hts', rfl⟩ := map_cons_some h
              rcases List.mem_cons.mp ht with rfl | ht'
              · show (!(c :: rest.takeWhile (fun d => !isDelim d)).isEmpty &&
                    (c :: rest.takeWhile (fun d => !isDelim d)).all (fun d => !isDelim d))
                    = true
                simp only [List.isEmpty_cons, Bool.not_false, Bool.true_and, List.all_cons]
                refine (Bool.and_eq_true _ _).mpr ⟨by simp [hc], ?_⟩
                refine List.all_eq_true.mpr (fun d hd => ?_)
                have hmt : (fun d => !isDelim d) d = true :=
                  List.mem_takeWhile_imp (l := rest) hd
                simpa using hmt
              · have hlen' := dropWhile_len_le (fun d => !isDelim d) rest
                exact ih (rest.dropWhile (fun d => !isDelim d)) (by omega) ts' hts' t ht'

/-- The parser only builds well-formed nodes from well-formed tokens, and
leaves only well-formed tokens unconsumed. -/
theorem parse_wf : ∀ fuel : Nat,
    (∀ (ts : List Tok) (n : SExp) (rest : List Tok),
      parseExpr fuel ts = some (n, rest) → (∀ t ∈ ts, tokWf t = true) →
      wf n = true ∧ ∀ t ∈ rest, tokWf t = true) ∧
    (∀ (ts : List Tok) (xs : List SExp) (rest : List Tok),
      parseList fuel ts = some (xs, rest) → (∀ t ∈ ts, tokWf t = true) →
      wfL xs = true ∧ ∀ t ∈ rest, tokWf t = true) := by
  intro fuel
  induction fuel with
  | zero =>
    constructor
    · intro ts n rest h _
      simp [parseExpr] at h
    · intro ts xs rest h _
      simp [parseList] at h
  | succ f ih =>
    have hsub : ∀ (t0 : Tok) (ts : List Tok), (∀ t ∈ t0 :: ts, tokWf t = true) →
        ∀ t ∈ ts, tokWf t = true := fun t0 ts h t ht => h t (by simp [ht])
    constructor
    · intro ts n rest h htw
      rcases ts with _ | ⟨t0, ts'⟩
      · simp [parseExpr] at h
      · rcases t0 with _ | _ | s | s
        · -- lpar
          simp only [parseExpr] at h
          cases hpl : parseList f ts' with
          | none => rw [hpl] at h; cases h
          | some pr =>
            obtain ⟨xs, r⟩ := pr
            rw [hpl] at h
            change some (SExp.list xs, r) = some (n, rest) at h
            injection h with h2
            injection h2 with h3 h4
            subst h3
            subst h4
            have hres := ih.2 ts' xs r hpl (hsub _ _ htw)
            exact ⟨by simpa [wf] using hres.1, hres.2⟩
        · simp [parseExpr] at h
        · -- bare symbol
          simp only [parseExpr] at h
          injection h with h2
          injection h2 with h3 h4
          subst h3
          subst h4
          refine ⟨?_, hsub _ _ htw⟩
          have := htw (Tok.sym s) (by simp)
          simpa [wf, tokWf] using this
        · -- string literal
          simp only [parseExpr] at h
          injection h with h2
          injection h2 with h3 h4
          subst h3
          subst h4
          exact ⟨by simp [wf], hsub _ _ htw⟩
    · intro ts xs rest h htw
      rcases ts with _ | ⟨t0, ts'⟩
      · simp only [parseList] at h
        have hnone : parseExpr f ([] : List Tok) = none := by
          cases f <;> rfl
        rw [hnone] at h
        cases h
      · by_cases hrp : t0 = Tok.rpar
        · subst hrp
          simp only [parseList] at h
          change some (([] : List SExp), ts') = some (xs, rest) at h
          injection h with h2
          injection h2 with h3 h4
          subst h3
          subst h4
          exact ⟨by simp [wfL], hsub _ _ htw⟩
        · have hstep : parseList (f + 1) (t0 :: ts') =
              match parseExpr f (t0 :: ts') with
              | none => none
              | some (x, ts1) =>
                match parseList f ts1 with
                | none => none
                | some (xs, ts2) => some (x :: xs, ts2) := by
            rcases t0 with _ | _ | s | s
            · rfl
            · exact absurd rfl hrp
            · rfl
            · rfl
          rw [hstep] at h
          cases hpe : parseExpr f (t0 :: ts') with
          | none => rw [hpe] at h; cases h
          | some pr =>
            obtain ⟨x, ts1⟩ := pr
            rw [hpe] at h
            change (match parseList f ts1 with
              | none => none
              | some (xs, ts2) => some (x :: xs, ts2)) = some (xs, rest) at h
            cases hpl : parseList f ts1 with
            | none => rw [hpl] at h; cases h
            | some pr2 =>
              obtain ⟨xs2, ts2⟩ := pr2
              rw [hpl] at h
              change some (x :: xs2, ts2) = some (xs, rest) at h
              injection h with h2
              injection h2 with h3 h4
              subst h3
              subst h4
              obtain ⟨hwx, hts1⟩ := ih.1 (t0 :: ts') x ts1 hpe htw
              obtain ⟨hwxs, hrest⟩ := ih.2 ts1 xs2 ts2 hpl hts1
              exact ⟨by simp [wfL, hwx, hwxs], hrest⟩

/-- `parse` on an explicit character list (definitional). -/
theorem parse_mk (cs : List Char) :
    parse ⟨cs⟩ =
      match tkz cs with
      | none => none
      | some toks =>
        match parseExpr (toks.length + 1) toks with
        | some (n, []) => some n
        | _ => none := rfl

/-- A character list tokenizing to a node's token sequence parses to
that node. -/
theorem parse_toToks (n : SExp) (cs : List Char)
    (htk : tkz cs = some (toToks n)) : parse ⟨cs⟩ = some n := by
  rw [parse_mk, htk]
  have hfuel : sz n ≤ (toToks n).length + 1 := by
    have := (sz_le_len (sz n)).1 n le_rfl
    omega
  have hp := (parse_toks ((toToks n).length + 1)).1 n [] hfuel
  rw [List.append_nil] at hp
  change (match parseExpr ((toToks n).length + 1) (toToks n) with
    | some (n, []) => some n
    | _ => none) = some n
  rw [hp]

/-- Successful parsing certifies a fully consumed token list. -/
theorem parse_some_inv (t : String) (n : SExp) (h : parse t = some n) :
    ∃ toks, tkz t.data = some toks ∧ parseExpr (toks.length + 1) toks = some (n, []) := by
  have h' : (match tkz t.data with
      | none => none
      | some toks =>
        match parseExpr (toks.length + 1) toks with
        | some (n, []) => some n
        | _ => none) = some n := h
  cases htk : tkz t.data with
  | none => rw [htk] at h'; cases h'
  | some toks =>
    rw [htk] at h'
    change (match parseExpr (toks.length + 1) toks with
      | some (n, []) => some n
      | _ => none) = some n at h'
    refine ⟨toks, rfl, ?_⟩
    cases hpe : parseExpr (toks.length + 1) toks with
    | none => rw [hpe] at h'; cases h'
    | some pr =>
      obtain ⟨n', rest'⟩ := pr
      rw [hpe] at h'
      rcases rest' with _ | ⟨r0, rs⟩
      · change some n' = some n at h'
        injection h' with h2
        subst h2
        rfl
      · change (none : Option SExp) = some n at h'
        cases h'

/-- The tree produced by a successful parse is well formed. -/
theorem parse_some_wf (t : String) (n : SExp) (h : parse t = some n) :
    wf n = true := by
  obtain ⟨toks, htk, hpe⟩ := parse_some_inv t n h
  have htw := tkz_wf t.data.length t.data le_rfl toks htk
  exact ((parse_wf (toks.length + 1)).1 toks n [] hpe htw).1

/-- C1: for every text `t` that parses successfully to a tree `n`,
serialising `n` — through `_format_sexp` alone, or through
`_serialise_symbol_library` with its trailing-newline rule — and parsing
the result yields exactly `parse t` again: the atom-quoting rule the
serializer uses is the one the parser consumes, so the round-trip is
faithful after the first normalization pass. -/
theorem c1_roundtrip (t : String) (n : SExp) (h : parse t = some n) :
    parse (formatSexp n) = parse t ∧ parse (serialiseSymbolLibrary n) = parse t := by
  have hwf := parse_some_wf t n h
  have hmain := (tok_fmt_main (sz n)).1 n le_rfl hwf 0
  have h1 : tkz (fmt 0 n) = some (toToks n) := by
    have hm := hmain [] trivial
    rw [List.append_nil] at hm
    rw [hm]
    change some (toToks n ++ []) = some (toToks n)
    rw [List.append_nil]
  have hnl : tkz ['\n'] = some [] := by
    rw [tkz_ws (by decide)]
    exact tkz_nil
  have h1' : tkz (fmt 0 n ++ ['\n']) = some (toToks n) := by
    have hm := hmain ['\n'] (by simp [delimHead, isDelim, isWs])
    rw [hnl] at hm
    rw [hm]
    change some (toToks n ++ []) = some (toToks n)
    rw [List.append_nil]
  have hfmt : parse ⟨fmt 0 n⟩ = some n := parse_toToks n (fmt 0 n) h1
  have hser : parse ⟨fmt 0 n ++ ['\n']⟩ = some n := parse_toToks n _ h1'
  rw [h]
  constructor
  · exact hfmt
  · show parse (if (fmt 0 n).getLast? = some '\n' then (⟨fmt 0 n⟩ : String)
      else ⟨fmt 0 n ++ ['\n']⟩) = some n
    by_cases hlast : (fmt 0 n).getLast? = some '\n'
    · rw [if_pos hlast]
      exact hfmt
    · rw [if_neg hlast]
      exact hser

theorem c1_roundtrip_witness :
    parse "(a b)" = some (.list [.sym "a", .sym "b"]) ∧
    parse (formatSexp (.list [.sym "a", .sym "b"])) = parse "(a b)" ∧
    parse (serialiseSymbolLibrary (.list [.sym "a", .sym "b"])) = parse "(a b)" :=
  ⟨rfl, (c1_roundtrip "(a b)" (.list [.sym "a", .sym "b"]) rfl).1,
    (c1_roundtrip "(a b)" (.list [.sym "a", .sym "b"]) rfl).2⟩

end KiPorter
